import Mathlib

set_option linter.unusedSectionVars false

/-!
# Verification of the link-dependency-viz dependency graph engine

Shallow embedding of `dependency_viz.py` (the dependency graph engine of
vsapsai/link-dependency-viz) and proofs about it.

Modelling conventions:
* A Python `dict` is an association list (`List (K × A)`); iteration order of a
  Python 2 dict is unspecified, so the list order stands in for whatever order
  the interpreter uses.  Dict equality (`==`) is key-set plus per-key value
  equality, embodied in the `...Beq` functions below.
* A Python `set` is a duplicate-free list (`LSet`), built with `setInsert`;
  set equality is mutual containment (`lsBeq`).
* Machine integers do not occur; all counts/distances are `Nat`.
* `DirectedGraph._reachable_vertexes` recurses on unvisited vertices only, so
  its recursion depth is bounded by the number of vertices; the embedding uses
  a fuel argument (`reachFuel` exceeds that depth), with `none` marking the
  fuel-exhaustion branch that the Python code never reaches.
* Fallible operations (dict `KeyError`, the `assert` statements) return
  `Option`/`Except`.
-/

section Dicts

variable {V L : Type} {α : Type} [DecidableEq V] [DecidableEq L]

/-- Lookup in an association list (Python `dict.get` / `d[k]`). -/
def dlookup : List (V × α) → V → Option α
  | [], _ => none
  | p :: r, x => if p.1 = x then some p.2 else dlookup r x

/-- `d[k] = v` on a Python dict: replace in place if the key exists,
otherwise add a new entry. -/
def dictSet : List (V × α) → V → α → List (V × α)
  | m, k, v =>
    if m.any (fun p => p.1 = k) then m.map (fun p => if p.1 = k then (p.1, v) else p)
    else m ++ [(k, v)]

/-- The key list of a dict. -/
def keysOf (m : List (V × α)) : List V := m.map Prod.fst

/-- Python `set`, modelled as a duplicate-free list. -/
abbrev LSet (L : Type) := List L

/-- `s.add(x)` on a Python set. -/
def setInsert (s : LSet L) (x : L) : LSet L := if x ∈ s then s else s ++ [x]

/-- Python `set` equality: mutual containment. -/
def lsBeq (s₁ s₂ : LSet L) : Bool :=
  s₁.all (fun x => decide (x ∈ s₂)) && s₂.all (fun x => decide (x ∈ s₁))

end Dicts

/-! ## PathItem (class `PathItem`) -/

/-- `PathItem(vertex, prev_vertex, distance, edge_labels)`. -/
structure PathItem (V L : Type) where
  vertex : V
  prev_vertex : V
  distance : Nat
  edge_labels : LSet L
deriving DecidableEq, Repr

section PathItemDefs

variable {V L : Type} [DecidableEq V] [DecidableEq L]

/-- `PathItem.__eq__`: componentwise comparison; `edge_labels` are Python sets,
so they compare by set equality. -/
def PathItem.pyEq (p q : PathItem V L) : Bool :=
  decide (p.vertex = q.vertex) && decide (p.prev_vertex = q.prev_vertex) &&
    decide (p.distance = q.distance) && lsBeq p.edge_labels q.edge_labels

/-- CPython semantics: a mutable `set` is unhashable — `hash(set(...))` raises
`TypeError`.  A raising hash is modelled as `none`.  `PathItem.edge_labels` is
always a plain `set` in this program (built by `defaultdict(set)` in
`Builder.build_graph`), which is what this models. -/
def pySetHash (_s : LSet L) : Option Nat := none

/-- `PathItem.__hash__`: `hash(vertex) + hash(prev_vertex) + hash(distance) +
hash(edge_labels)`.  The vertex/distance hashes always succeed (strings and
ints are hashable; `hV` stands for the interpreter's string hash); the final
summand raises because `edge_labels` is a mutable set. -/
def PathItem.pyHash (hV : V → Nat) (p : PathItem V L) : Option Nat :=
  (pySetHash p.edge_labels).map (fun h => hV p.vertex + hV p.prev_vertex + p.distance + h)

end PathItemDefs

/-! ## DirectedGraph and its Builder -/

/-- `DirectedGraph.__init__`: wraps the adjacency matrix, a dict from vertex to
a dict from destination vertex to the set of edge labels. -/
structure DirectedGraph (V L : Type) where
  adjacency_matrix : List (V × List (V × LSet L))

/-- `DirectedGraph.Builder`: `_edges` maps a vertex to the list of
`(to_vertex, edge_label)` pairs appended so far (a `defaultdict(list)`). -/
structure DirectedGraph.Builder (V L : Type) where
  edges : List (V × List (V × L))

namespace DirectedGraph.Builder

variable {V L : Type} [DecidableEq V] [DecidableEq L]

/-- `add_vertex`: `if vertex not in self._edges: self._edges[vertex] = []`. -/
def add_vertex (b : Builder V L) (v : V) : Builder V L :=
  if b.edges.any (fun p => p.1 = v) then b else ⟨b.edges ++ [(v, [])]⟩

/-- `add_edge_with_label`: append `(to_vertex, edge_label)` to the from-vertex's
list (the defaultdict creates the entry if absent), then ensure the
to-vertex exists as a vertex. -/
def add_edge_with_label (b : Builder V L) (from_vertex to_vertex : V) (edge_label : L) :
    Builder V L :=
  let edges :=
    if b.edges.any (fun p => p.1 = from_vertex) then
      b.edges.map (fun p =>
        if p.1 = from_vertex then (p.1, p.2 ++ [(to_vertex, edge_label)]) else p)
    else b.edges ++ [(from_vertex, [(to_vertex, edge_label)])]
  add_vertex ⟨edges⟩ to_vertex

/-- `add_edge_with_labels`: one `add_edge_with_label` per label.  The source
asserts `len(edge_labels) > 0`; all in-repo callers pass the non-empty label
sets stored in a built graph. -/
def add_edge_with_labels (b : Builder V L) (from_vertex to_vertex : V) (edge_labels : LSet L) :
    Builder V L :=
  edge_labels.foldl (fun b l => b.add_edge_with_label from_vertex to_vertex l) b

/-- The inner loop of `build_graph`: collect the `(to_vertex, label)` pairs of
one from-vertex into a dict from destination to label set
(`collections.defaultdict(set)` plus `.add`). -/
def collect_destinations (destinations : List (V × L)) : List (V × LSet L) :=
  destinations.foldl (fun acc q =>
    if acc.any (fun p => p.1 = q.1) then
      acc.map (fun p => if p.1 = q.1 then (p.1, setInsert p.2 q.2) else p)
    else acc ++ [(q.1, [q.2])]) []

/-- `build_graph`: freeze the builder, collapsing repeated `(from, to)` pairs
into one entry with the union label set. -/
def build_graph (b : Builder V L) : DirectedGraph V L :=
  ⟨b.edges.map (fun p => (p.1, collect_destinations p.2))⟩

end DirectedGraph.Builder

namespace DirectedGraph

variable {V L : Type} [DecidableEq V] [DecidableEq L]

/-- Inner-dict equality for `__eq__`: same destination keys, set-equal labels. -/
def destsBeq (d₁ d₂ : List (V × LSet L)) : Bool :=
  d₁.all (fun p => match dlookup d₂ p.1 with
    | some s => lsBeq p.2 s
    | none => false) &&
  d₂.all (fun p => match dlookup d₁ p.1 with
    | some s => lsBeq p.2 s
    | none => false)

/-- `DirectedGraph.__eq__`: Python dict equality of the adjacency matrices
(same vertices, and per vertex the same destination dict). -/
def pyEq (g₁ g₂ : DirectedGraph V L) : Bool :=
  g₁.adjacency_matrix.all (fun p => match dlookup g₂.adjacency_matrix p.1 with
    | some d => destsBeq p.2 d
    | none => false) &&
  g₂.adjacency_matrix.all (fun p => match dlookup g₁.adjacency_matrix p.1 with
    | some d => destsBeq p.2 d
    | none => false)

/-- `is_empty`: `len(self._adjacency_matrix) == 0`. -/
def is_empty (g : DirectedGraph V L) : Bool := g.adjacency_matrix.isEmpty

/-- `vertexes`: `frozenset(self._adjacency_matrix.keys())`. -/
def vertexes (g : DirectedGraph V L) : Finset V :=
  (keysOf g.adjacency_matrix).toFinset

/-- `self._adjacency_matrix[from_vertex]`, totalised: a missing key (a
`KeyError` in Python) yields `[]`.  Reachability only ever indexes vertices of
the graph, where the two agree. -/
def destinations (g : DirectedGraph V L) (v : V) : List (V × LSet L) :=
  (dlookup g.adjacency_matrix v).getD []

/-- `subgraph`: keep a from-vertex (as a vertex) iff it is in `sub_vertexes`;
keep an edge iff both endpoints are. -/
def subgraph (g : DirectedGraph V L) (sub_vertexes : Finset V) : DirectedGraph V L :=
  Builder.build_graph <|
    g.adjacency_matrix.foldl (fun b p =>
      if p.1 ∈ sub_vertexes then
        p.2.foldl (fun b q =>
          if q.1 ∈ sub_vertexes then b.add_edge_with_labels p.1 q.1 q.2 else b)
          (b.add_vertex p.1)
      else b) ⟨[]⟩

/-- `reversed_graph`: every vertex is re-added; every edge `(a, b, labels)`
becomes `(b, a, labels)`. -/
def reversed_graph (g : DirectedGraph V L) : DirectedGraph V L :=
  Builder.build_graph <|
    g.adjacency_matrix.foldl (fun b p =>
      p.2.foldl (fun b q => b.add_edge_with_labels q.1 p.1 q.2) (b.add_vertex p.1))
      ⟨[]⟩

/-- A dict of reachable vertices: target vertex to its `PathItem`. -/
abbrev ReachDict (V L : Type) := List (V × PathItem V L)

/-- The merge of one child's transitive result into the accumulating
`reachable` dict (the inner `for reachable_vertex, reachable_path_item in
transitive_reachable.iteritems()` loop of `_reachable_vertexes`). -/
def mergeTransitive (reachable trans : ReachDict V L) : ReachDict V L :=
  trans.foldl (fun r q =>
    let cand : PathItem V L := ⟨q.1, q.2.prev_vertex, q.2.distance + 1, q.2.edge_labels⟩
    match dlookup r q.1 with
    | none => dictSet r q.1 cand
    | some cur => if q.2.distance + 1 < cur.distance then dictSet r q.1 cand else r)
    reachable

/-- One iteration of the `for to_vertex, edge_labels in ...` loop of
`_reachable_vertexes`; `recur` is the recursive call (which mutates the
shared visited set, hence the threaded `List V`). -/
def reachStep (from_vertex : V)
    (recur : V → List V → Option (ReachDict V L × List V))
    (acc : Option (ReachDict V L × List V)) (dest : V × LSet L) :
    Option (ReachDict V L × List V) :=
  match acc with
  | none => none
  | some (reachable, visited) =>
    if dest.1 ∈ visited then some (reachable, visited)
    else
      let np : PathItem V L := ⟨dest.1, from_vertex, 1, dest.2⟩
      let reachable :=
        match dlookup reachable dest.1 with
        | none => dictSet reachable dest.1 np
        | some cur => if np.distance < cur.distance then dictSet reachable dest.1 np
          else reachable
      match recur dest.1 visited with
      | none => none
      | some (transitive_reachable, visited') =>
        some (mergeTransitive reachable transitive_reachable, visited')

/-- `_reachable_vertexes(from_vertex, visited)`: mark `from_vertex` visited,
then fold `reachStep` over its out-edges.  The `Nat` argument is recursion
fuel; `none` is the fuel-exhaustion branch. -/
def reachAux (g : DirectedGraph V L) : Nat → V → List V → Option (ReachDict V L × List V)
  | 0, _, _ => none
  | fuel + 1, from_vertex, visited =>
    (g.destinations from_vertex).foldl
      (reachStep from_vertex (fun tv vis => reachAux g fuel tv vis))
      (some ([], setInsert visited from_vertex))

/-- An upper bound on the traversal's recursion depth: every recursive call is
on a vertex that was unvisited at call time and gets marked visited, and every
such vertex is either the root or some destination, so the depth never exceeds
`1 + (number of destination entries)`.  Hence this fuel never runs out on the
call `reachable_vertexes` makes. -/
def reachFuel (g : DirectedGraph V L) : Nat :=
  g.adjacency_matrix.length + (g.adjacency_matrix.map (fun p => p.2.length)).sum + 1

/-- `reachable_vertexes(from_vertex)`: run the traversal with a fresh empty
visited set. -/
def reachable_vertexes (g : DirectedGraph V L) (from_vertex : V) : ReachDict V L :=
  match reachAux g (reachFuel g) from_vertex [] with
  | some (r, _) => r
  | none => []

end DirectedGraph

section PathFromRoot

variable {V L : Type} [DecidableEq V] [DecidableEq L]

open DirectedGraph in
/-- `PathItem.path_from_root`, fuelled.  The source recurses through
`path_items_dict[self.prev_vertex]` until it meets a distance-1 item; on the
dicts produced by `reachable_vertexes` each step decreases `distance` by
exactly one (theorem `c9`...), so `distance` bounds the recursion depth.
`none` models a `KeyError` or divergence on dicts that violate that shape. -/
def pathAux : Nat → PathItem V L → DirectedGraph.ReachDict V L → Option (List (PathItem V L))
  | 0, _, _ => none
  | fuel + 1, p, dict =>
    if p.distance = 1 then some [p]
    else
      match dlookup dict p.prev_vertex with
      | none => none
      | some q => (pathAux fuel q dict).map (fun c => c ++ [p])

/-- `path_from_root(path_items_dict)`. -/
def PathItem.path_from_root (p : PathItem V L) (path_items_dict : DirectedGraph.ReachDict V L) :
    Option (List (PathItem V L)) :=
  pathAux p.distance p path_items_dict

end PathFromRoot

/-! ## File-name normalisation (`short_filename`) -/

/-- Split a character list at the last occurrence of `c`:
`some (before, after)` when `c` occurs, like Python's `rfind`. -/
def splitAtLast (c : Char) : List Char → Option (List Char × List Char)
  | [] => none
  | x :: xs =>
    match splitAtLast c xs with
    | some (b, a) => some (x :: b, a)
    | none => if x = c then some ([], xs) else none

/-- `os.path.split(p)[1]`: everything after the last `/`. -/
def basenameChars (cs : List Char) : List Char :=
  match splitAtLast '/' cs with
  | some (_, a) => a
  | none => cs

/-- `os.path.splitext(b)[0]` on a basename: drop from the last `.` on, but
only when some non-dot character stands before that dot (CPython keeps
leading-dot names like `.bashrc` whole). -/
def stripExtChars (cs : List Char) : List Char :=
  match splitAtLast '.' cs with
  | some (b, _) => if b.any (fun x => x ≠ '.') then b else cs
  | none => cs

/-- `short_filename`: strip directory and extension from a file path. -/
def short_filename (file_path : String) : String :=
  ⟨stripExtChars (basenameChars file_path.toList)⟩

/-! ## Dot-file rendering (`write_dot_file`) -/

/-- Insert into an ascending list (used to model Python's `sorted`). -/
def insertAsc (x : String) : List String → List String
  | [] => [x]
  | y :: ys => if x ≤ y then x :: y :: ys else y :: insertAsc x ys

/-- Python `sorted` on a label set. -/
def sortedLabels (s : LSet String) : List String := s.foldr insertAsc []

namespace DirectedGraph

/-- `write_dot_file`, with the file content returned as a string instead of
written to disk (the claims are about the content and when it is produced,
never about the file system). -/
def write_dot_file (g : DirectedGraph String String) (write_edge_labels : Bool) : String :=
  "digraph dependencies \x7b\n" ++
    String.join (g.adjacency_matrix.map (fun p =>
      String.join (p.2.map (fun q =>
        "    " ++ p.1 ++ " -> " ++ q.1 ++
          (if write_edge_labels then
            " [label=\x27" ++ String.intercalate ", " (sortedLabels q.2) ++ "\x27]"
          else "") ++ ";\n")) ++
      (if p.2.length = 0 then "    " ++ p.1 ++ ";\n" else ""))) ++
  "\x7d\n"

end DirectedGraph

/-! ## DependencyReport and the Dependencies facade -/

/-- `DependencyReport`: a per-file bundle of required and provided
dependencies (both dicts from vertex to `PathItem`). -/
structure DependencyReport where
  filename : String
  required_dependencies : DirectedGraph.ReachDict String String
  provided_dependencies : DirectedGraph.ReachDict String String
deriving DecidableEq, Repr

namespace DependencyReport

/-- `required_dependencies_count`: `len(self._required_dependencies)`. -/
def required_dependencies_count (r : DependencyReport) : Nat :=
  r.required_dependencies.length

/-- `provided_dependencies_count`: `len(self._provided_dependencies)`. -/
def provided_dependencies_count (r : DependencyReport) : Nat :=
  r.provided_dependencies.length

end DependencyReport

/-- `Dependencies._UNDEFINED_FILE`. -/
def UNDEFINED_FILE : String := "<Undefined>"

/-- The dict `_all_dependencies_dict` builds: filename to report. -/
abbrev ReportsDict := List (String × DependencyReport)

/-- The state of a `Dependencies` instance: the frozen dependency graph, the
marked-file set, and the two per-flag report caches
(`self._dependency_dicts = [None, None]`; first component = the
`include_marked_files = True` variant, second = the excluding variant). -/
structure Dependencies where
  dependency_graph : DirectedGraph String String
  marked_files : Finset String
  dependency_dicts : Option ReportsDict × Option ReportsDict

namespace Dependencies

/-- The state right after `Dependencies.__init__`, given the dependency graph
it built.  Building the graph itself invokes the external symbol-table reader
(`nm`), which is outside the engine (spec section 6); the engine only relies on
the post-construction state: some built graph, marked files initialised to the
undefined sentinel, and both caches empty. -/
def init (dependency_graph : DirectedGraph String String) : Dependencies :=
  { dependency_graph := dependency_graph
    marked_files := {UNDEFINED_FILE}
    dependency_dicts := (none, none) }

/-- `mark_files`: replace the marked set with the short names of the given
files plus the undefined sentinel.  (The source reads the file list from a
link-file-list file; `files` here is its line list.) -/
def mark_files (d : Dependencies) (files : List String) : Dependencies :=
  { d with marked_files := ((files.map short_filename) ++ [UNDEFINED_FILE]).toFinset }

/-- `files`: `self._dependency_graph.vertexes()`. -/
def files (d : Dependencies) : Finset String := d.dependency_graph.vertexes

/-- The single error condition of `dump`/`dump_subgraph`: the
`assert not ... .is_empty()` failure. -/
inductive DumpError
  | emptyGraph
deriving DecidableEq, Repr

/-- `dump`: assert the graph is non-empty, then write the dot file.  The
assert precedes `write_dot_file`, which is what opens the output file, so an
empty graph raises before any file is opened; the model returns the would-be
file content. -/
def dump (d : Dependencies) (write_edge_labels : Bool) : Except DumpError String :=
  if d.dependency_graph.is_empty then .error .emptyGraph
  else .ok (d.dependency_graph.write_dot_file write_edge_labels)

/-- `dump_subgraph`: build the subgraph, assert it non-empty, write it. -/
def dump_subgraph (d : Dependencies) (vertexes : Finset String) (write_edge_labels : Bool) :
    Except DumpError String :=
  let subgraph := d.dependency_graph.subgraph vertexes
  if subgraph.is_empty then .error .emptyGraph
  else .ok (subgraph.write_dot_file write_edge_labels)

/-- The iteration order of `for filename in dependency_graph.vertexes()`:
the graph's vertices in some order (a frozenset iterates in unspecified
order; the key order of the adjacency dict stands in for it). -/
def vertexList (g : DirectedGraph String String) : List String :=
  (keysOf g.adjacency_matrix).dedup

/-- The report-computation loop of `_all_dependencies_dict`: one
`DependencyReport` per vertex of the chosen graph, with required dependencies
from the graph and provided dependencies from its reversal. -/
def reports_for (dependency_graph : DirectedGraph String String) : ReportsDict :=
  let reversed_dependency_graph := dependency_graph.reversed_graph
  (vertexList dependency_graph).map (fun filename =>
    (filename,
      { filename := filename
        required_dependencies := dependency_graph.reachable_vertexes filename
        provided_dependencies := reversed_dependency_graph.reachable_vertexes filename }))

/-- `_all_dependencies_dict(include_marked_files)`: return the cached dict for
the flag if present; otherwise compute all per-file reports (over the full
graph, or over the subgraph without marked files), cache and return them.
Returns the possibly updated state alongside the dict. -/
def all_dependencies_dict (d : Dependencies) (include_marked_files : Bool) :
    ReportsDict × Dependencies :=
  let cached := if include_marked_files then d.dependency_dicts.1 else d.dependency_dicts.2
  match cached with
  | some dict => (dict, d)
  | none =>
    let dependency_graph :=
      if include_marked_files then d.dependency_graph
      else d.dependency_graph.subgraph (d.files \ d.marked_files)
    let dict : ReportsDict := reports_for dependency_graph
    (dict,
      { d with dependency_dicts :=
          if include_marked_files then (some dict, d.dependency_dicts.2)
          else (d.dependency_dicts.1, some dict) })

/-- `all_dependencies(include_marked_files)`: the report dict's values. -/
def all_dependencies (d : Dependencies) (include_marked_files : Bool) :
    List DependencyReport × Dependencies :=
  let (dict, d') := all_dependencies_dict d include_marked_files
  (dict.map Prod.snd, d')

/-- `required_dependencies(filename, verbose=True, include_marked_files)`:
shorten the name, look its report up in the per-flag dict, and return its
required-dependency dict (`none` models the `KeyError` on an unknown file;
with `verbose=False` the source projects the same dict to its key set). -/
def required_dependencies (d : Dependencies) (filename : String)
    (include_marked_files : Bool) :
    Option (DirectedGraph.ReachDict String String) × Dependencies :=
  let filename := short_filename filename
  let (dict, d') := all_dependencies_dict d include_marked_files
  ((dlookup dict filename).map (·.required_dependencies), d')

/-- `provided_dependencies(filename, verbose=True, include_marked_files)`. -/
def provided_dependencies (d : Dependencies) (filename : String)
    (include_marked_files : Bool) :
    Option (DirectedGraph.ReachDict String String) × Dependencies :=
  let filename := short_filename filename
  let (dict, d') := all_dependencies_dict d include_marked_files
  ((dlookup dict filename).map (·.provided_dependencies), d')

/-- `files_connection(file1, file2)`: shorten both names, then collect
`file1`'s required path to `file2` (if any) and `file2`'s required path to
`file1` (if any).  Note the nested `required_dependencies` calls shorten
their argument a second time.  `none` models an uncaught `KeyError`. -/
def files_connection (d : Dependencies) (file1 file2 : String) :
    Option (List (List (PathItem String String))) × Dependencies :=
  let file1 := short_filename file1
  let file2 := short_filename file2
  let (dd₁, d₁) := required_dependencies d file1 true
  match dd₁ with
  | none => (none, d₁)
  | some direct_dependencies =>
    let step₁ : Option (List (List (PathItem String String))) :=
      match dlookup direct_dependencies file2 with
      | none => some []
      | some item => (item.path_from_root direct_dependencies).map (fun c => [c])
    match step₁ with
    | none => (none, d₁)
    | some result =>
      let (dd₂, d₂) := required_dependencies d₁ file2 true
      match dd₂ with
      | none => (none, d₂)
      | some reverse_dependencies =>
        match dlookup reverse_dependencies file1 with
        | none => (some result, d₂)
        | some item =>
          ((item.path_from_root reverse_dependencies).map (fun c => result ++ [c]), d₂)

/-- Stable insertion for a descending sort (Python `list.sort(key=...,
reverse=True)` is stable: of two equal keys the earlier element stays first). -/
def sortInsertDesc (key : DependencyReport → Nat) (x : DependencyReport) :
    List DependencyReport → List DependencyReport
  | [] => [x]
  | y :: ys => if key x ≤ key y then y :: sortInsertDesc key x ys else x :: y :: ys

/-- Stable insertion for an ascending sort (`reverse=False`). -/
def sortInsertAsc (key : DependencyReport → Nat) (x : DependencyReport) :
    List DependencyReport → List DependencyReport
  | [] => [x]
  | y :: ys => if key y ≤ key x then y :: sortInsertAsc key x ys else x :: y :: ys

/-- Python's stable `list.sort(key=criteria, reverse=descending)`. -/
def pySortBy (key : DependencyReport → Nat) (descending : Bool)
    (l : List DependencyReport) : List DependencyReport :=
  l.foldl (fun acc x =>
    if descending then sortInsertDesc key x acc else sortInsertAsc key x acc) []

/-- `_top_files(criteria_method_name, count, include_marked_files, descending)`.
`criteria` models `methodcaller(criteria_method_name)`.  NOTE (faithful to the
source): the body calls `self.all_dependencies()` with no argument, so the
`include_marked_files` parameter is accepted but ignored and the default
`True` variant is always ranked. -/
def top_files (d : Dependencies) (criteria : DependencyReport → Nat) (count : Nat)
    (_include_marked_files : Bool) (descending : Bool) :
    List DependencyReport × Dependencies :=
  let (result, d') := all_dependencies d true
  ((pySortBy criteria descending result).take count, d')

/-- `most_dependent_file(count)`. -/
def most_dependent_file (d : Dependencies) (count : Nat) :
    List DependencyReport × Dependencies :=
  top_files d DependencyReport.required_dependencies_count count true true

/-- `most_used_file(count)`: ranked by `provided_dependencies_count`, with
`include_marked_files=False` passed to (and ignored by) `_top_files`. -/
def most_used_file (d : Dependencies) (count : Nat) :
    List DependencyReport × Dependencies :=
  top_files d DependencyReport.provided_dependencies_count count false true

end Dependencies

/-! ## Concrete instances used in the claims -/

open DirectedGraph in
/-- The 4-cycle `a->b->c->d->b`, built edge by edge exactly like
`ReachableVertexesTestCase.test_cycle`. -/
def cycleGraph : DirectedGraph String String :=
  (((((Builder.mk []).add_edge_with_label "a" "b" "a->b").add_edge_with_label
    "b" "c" "b->c").add_edge_with_label "c" "d" "c->d").add_edge_with_label
    "d" "b" "d->b").build_graph

open DirectedGraph in
/-- A graph whose only edge is a self-edge `a->a`
(`ReachableVertexesTestCase.test_self_reference`). -/
def selfEdgeGraph : DirectedGraph String String :=
  ((Builder.mk []).add_edge_with_label "a" "a" "cycle").build_graph

open DirectedGraph in
/-- The two-vertex chain `a->b` with one labelled edge. -/
def chainGraph : DirectedGraph String String :=
  ((Builder.mk []).add_edge_with_label "a" "b" "a->b").build_graph

open DirectedGraph in
/-- A dependency graph where `m` is the most depended-upon file:
`a -> m` and `b -> m`, both justified by symbol `s`. -/
def markedDemoGraph : DirectedGraph String String :=
  (((Builder.mk []).add_edge_with_label "a" "m" "s").add_edge_with_label
    "b" "m" "s").build_graph

/-- A `Dependencies` state over `markedDemoGraph` with `m` marked
(as after `Dependencies(...)` followed by `mark_files` on a list containing
`m`'s object file). -/
def markedDemoDeps : Dependencies :=
  (Dependencies.init markedDemoGraph).mark_files ["m"]

open DirectedGraph in
/-- A graph whose vertices are the short names of `x.o` and `x.y.o`, with the
single edge `x -> x.y`: the counterexample graph for `files_connection`'s
double shortening. -/
def dottedGraph : DirectedGraph String String :=
  ((Builder.mk []).add_edge_with_label "x" "x.y" "s").build_graph

/-- A `Dependencies` state over `dottedGraph`. -/
def dottedDeps : Dependencies := Dependencies.init dottedGraph

/-- A `Dependencies` state whose dependency graph is empty (the graph an
empty link-file list produces). -/
def emptyDeps : Dependencies := Dependencies.init ⟨[]⟩

/-- A `Dependencies` state whose include-marked cache is either empty or
exactly what `_all_dependencies_dict(True)` computes — the only two states the
program ever produces for that slot. -/
def Dependencies.ValidTrueCache (d : Dependencies) : Prop :=
  d.dependency_dicts.1 = none ∨
    d.dependency_dicts.1 = some (Dependencies.reports_for d.dependency_graph)

/-- The cache slot the flag selects in `self._dependency_dicts`. -/
def cacheSlot (d : Dependencies) (include_marked_files : Bool) : Option ReportsDict :=
  if include_marked_files then d.dependency_dicts.1 else d.dependency_dicts.2

/-- The Python set a list of elements accumulates into (`set()` plus `.add` in
order): duplicates dropped, first occurrence kept. -/
def setList {L : Type} [DecidableEq L] (l : List L) : LSet L :=
  l.foldl setInsert []

/-- The label set of the edge `x -> y`, read off the adjacency matrix
(`none` when the edge — or the vertex `x` — is absent).  An observation used
to state graph properties. -/
def edgeLabels {V L : Type} [DecidableEq V] (g : DirectedGraph V L) (x y : V) :
    Option (LSet L) :=
  match dlookup g.adjacency_matrix x with
  | none => none
  | some destinations => dlookup destinations y

/-! ## Well-formedness of adjacency matrices

`DirectedGraph.Builder.build_graph` only ever produces adjacency matrices with
these Python-dict invariants: no duplicate keys (outer or inner), every edge's
label set non-empty (the builder's `assert len(edge_labels) > 0`) and
duplicate-free (label sets are Python sets), and every destination vertex
present as a key (`add_edge_with_label` calls `add_vertex(to_vertex)`). -/

/-- Dict and closure invariants of a built `DirectedGraph`. -/
def DirectedGraph.WF {V L : Type} (g : DirectedGraph V L) : Prop :=
  (keysOf g.adjacency_matrix).Nodup ∧
  ∀ p ∈ g.adjacency_matrix,
    (keysOf p.2).Nodup ∧
    ∀ q ∈ p.2, q.2 ≠ [] ∧ q.2.Nodup ∧ q.1 ∈ keysOf g.adjacency_matrix

instance {V L : Type} [DecidableEq V] [DecidableEq L] (g : DirectedGraph V L) :
    Decidable g.WF := by
  unfold DirectedGraph.WF
  infer_instance

/-! ## Invariants of the reachability traversal

`_reachable_vertexes` shares one visited set across the whole traversal and
marks a vertex visited before expanding it, so no vertex is ever recorded
twice: every key of any returned dict was unvisited at call time and is
visited on return.  `ItemInv` is the shape of the returned dict this forces:
distance-1 items point back at the root, and every deeper item's predecessor
is a key of the same dict with distance exactly one smaller. -/

/-- The per-item shape of a reachability result rooted at `root`. -/
def ItemInv {V L : Type} (root : V) (R : DirectedGraph.ReachDict V L) : Prop :=
  ∀ pr ∈ R,
    pr.2.vertex = pr.1 ∧ 1 ≤ pr.2.distance ∧
    (pr.2.distance = 1 → pr.2.prev_vertex = root) ∧
    (1 < pr.2.distance →
      ∃ qr ∈ R, qr.1 = pr.2.prev_vertex ∧ qr.2.distance + 1 = pr.2.distance)

/-- The transitive-merge rewrite of a child item: distance grows by one,
predecessor and labels are kept (`PathItem(reachable_vertex,
reachable_path_item.prev_vertex, reachable_path_item.distance + 1,
reachable_path_item.edge_labels)`). -/
def bumpItem {V L : Type} (q : V × PathItem V L) : V × PathItem V L :=
  (q.1, ⟨q.1, q.2.prev_vertex, q.2.distance + 1, q.2.edge_labels⟩)

/-- Everything `reachAux g fuel fv visited = some (R, visited')` guarantees:
the visited set only grows and gains `fv`; the result's keys are fresh
relative to the entry visited set (and distinct from `fv`), duplicate-free,
visited on return; and the items have the `ItemInv` shape rooted at `fv`. -/
def AuxInv {V L : Type} (fv : V) (visited : List V)
    (R : DirectedGraph.ReachDict V L) (visited' : List V) : Prop :=
  (∀ x ∈ visited, x ∈ visited') ∧ fv ∈ visited' ∧
  (keysOf R).Nodup ∧
  (∀ k ∈ keysOf R, k ∉ visited ∧ k ≠ fv ∧ k ∈ visited') ∧
  ItemInv fv R

/-!
# Theorems

First the association-list and set toolbox, then the traversal invariants,
then the claims.
-/

section DictLemmas

variable {V L : Type} {α : Type} [DecidableEq V] [DecidableEq L]

@[simp] theorem dlookup_nil (x : V) : dlookup ([] : List (V × α)) x = none := rfl

@[simp] theorem dlookup_cons (p : V × α) (r : List (V × α)) (x : V) :
    dlookup (p :: r) x = if p.1 = x then some p.2 else dlookup r x := rfl

theorem dlookup_append (m₁ m₂ : List (V × α)) (x : V) :
    dlookup (m₁ ++ m₂) x = ((dlookup m₁ x).map some).getD (dlookup m₂ x) := by
  induction m₁ with
  | nil => rfl
  | cons p r ih =>
    by_cases h : p.1 = x <;> simp [dlookup, h, ih]

theorem dlookup_eq_none_of_not_mem_keys {m : List (V × α)} {x : V}
    (h : x ∉ keysOf m) : dlookup m x = none := by
  induction m with
  | nil => rfl
  | cons p r ih =>
    simp only [keysOf, List.map_cons, List.mem_cons, not_or] at h
    have hp : p.1 ≠ x := fun he => h.1 he.symm
    simp [dlookup, hp, ih (by simpa [keysOf] using h.2)]

theorem mem_keys_of_dlookup_isSome {m : List (V × α)} {x : V}
    (h : (dlookup m x).isSome) : x ∈ keysOf m := by
  induction m with
  | nil => simp [dlookup] at h
  | cons p r ih =>
    by_cases hp : p.1 = x
    · simp [keysOf, hp]
    · simp only [dlookup_cons, hp, if_false] at h
      simp only [keysOf, List.map_cons, List.mem_cons]
      exact Or.inr (by simpa [keysOf] using ih h)

theorem dlookup_isSome_iff_mem_keys (m : List (V × α)) (x : V) :
    (dlookup m x).isSome ↔ x ∈ keysOf m := by
  constructor
  · exact mem_keys_of_dlookup_isSome
  · intro h
    by_contra hc
    rw [Option.not_isSome_iff_eq_none] at hc
    induction m with
    | nil => simp [keysOf] at h
    | cons p r ih =>
      by_cases hp : p.1 = x
      · simp [dlookup, hp] at hc
      · simp only [dlookup_cons, hp, if_false] at hc
        exact ih (by simpa [keysOf, Ne.symm hp] using h) hc

theorem dlookup_of_mem_of_nodup {m : List (V × α)} {k : V} {v : α}
    (hmem : (k, v) ∈ m) (hnd : (keysOf m).Nodup) : dlookup m k = some v := by
  induction m with
  | nil => simp at hmem
  | cons p r ih =>
    simp only [keysOf, List.map_cons, List.nodup_cons] at hnd
    rcases List.mem_cons.mp hmem with h | h
    · simp [dlookup, h.symm]
    · have hk : p.1 ≠ k := by
        intro he
        exact hnd.1 (he ▸ (by simpa [keysOf] using List.mem_map_of_mem Prod.fst h))
      simp [dlookup, hk, ih h (by simpa [keysOf] using hnd.2)]

theorem mem_of_dlookup_eq_some {m : List (V × α)} {k : V} {v : α}
    (h : dlookup m k = some v) : (k, v) ∈ m := by
  induction m with
  | nil => simp [dlookup] at h
  | cons p r ih =>
    by_cases hp : p.1 = k
    · simp only [dlookup_cons, hp, if_true, Option.some.injEq] at h
      exact List.mem_cons.mpr (Or.inl (by cases p; simp_all))
    · simp only [dlookup_cons, hp, if_false] at h
      exact List.mem_cons.mpr (Or.inr (ih h))

theorem dictSet_of_not_mem_keys {m : List (V × α)} {k : V} (v : α)
    (h : k ∉ keysOf m) : dictSet m k v = m ++ [(k, v)] := by
  have : m.any (fun p => p.1 = k) = false := by
    rw [List.any_eq_false]
    intro p hp
    simp only [decide_eq_true_eq]
    intro he
    exact h (he ▸ (by simpa [keysOf] using List.mem_map_of_mem Prod.fst hp))
  simp [dictSet, this]

@[simp] theorem keysOf_append (m₁ m₂ : List (V × α)) :
    keysOf (m₁ ++ m₂) = keysOf m₁ ++ keysOf m₂ := by simp [keysOf]

@[simp] theorem keysOf_nil : keysOf ([] : List (V × α)) = [] := rfl

@[simp] theorem keysOf_cons (p : V × α) (r : List (V × α)) :
    keysOf (p :: r) = p.1 :: keysOf r := rfl

theorem lsBeq_refl (s : LSet L) : lsBeq s s = true := by
  simp [lsBeq, List.all_eq_true]

theorem lsBeq_iff (s₁ s₂ : LSet L) : lsBeq s₁ s₂ = true ↔ ∀ x, x ∈ s₁ ↔ x ∈ s₂ := by
  simp only [lsBeq, Bool.and_eq_true, List.all_eq_true, decide_eq_true_eq]
  constructor
  · rintro ⟨h₁, h₂⟩ x
    exact ⟨h₁ x, h₂ x⟩
  · intro h
    exact ⟨fun x hx => (h x).mp hx, fun x hx => (h x).mpr hx⟩

@[simp] theorem mem_setInsert (s : LSet L) (x y : L) :
    y ∈ setInsert s x ↔ y ∈ s ∨ y = x := by
  by_cases h : x ∈ s
  · simp only [setInsert, if_pos h]
    constructor
    · exact Or.inl
    · rintro (hy | rfl) <;> [exact hy; exact h]
  · simp [setInsert, if_neg h]

theorem setInsert_ne_nil (s : LSet L) (x : L) : setInsert s x ≠ [] := by
  by_cases h : x ∈ s
  · simp only [setInsert, if_pos h]
    rintro rfl
    simp at h
  · simp [setInsert, if_neg h]

theorem setInsert_nodup {s : LSet L} (h : s.Nodup) (x : L) : (setInsert s x).Nodup := by
  by_cases hx : x ∈ s
  · simpa [setInsert, hx] using h
  · simp [setInsert, hx, List.nodup_append, h]

end DictLemmas


/-! ## Invariants of the reachability traversal -/

section ReachInv

open DirectedGraph

variable {V L : Type} [DecidableEq V] [DecidableEq L]

@[simp] theorem reachStep_none (fv : V)
    (recur : V → List V → Option (ReachDict V L × List V)) (d : V × LSet L) :
    reachStep fv recur none d = none := rfl

theorem reachFold_none (fv : V)
    (recur : V → List V → Option (ReachDict V L × List V))
    (dests : List (V × LSet L)) :
    dests.foldl (reachStep fv recur) none = none := by
  induction dests with
  | nil => rfl
  | cons d rest ih => simpa using ih

theorem reachStep_mem (fv : V)
    (recur : V → List V → Option (ReachDict V L × List V))
    {r : ReachDict V L} {vis : List V} {d : V × LSet L} (h : d.1 ∈ vis) :
    reachStep fv recur (some (r, vis)) d = some (r, vis) := by
  simp [reachStep, h]

@[simp] theorem keysOf_map_bumpItem (l : ReachDict V L) :
    keysOf (l.map bumpItem) = keysOf l := by
  simp [keysOf, bumpItem, Function.comp]

theorem mergeTransitive_of_disjoint {r trans : ReachDict V L}
    (hdisj : ∀ k ∈ keysOf trans, k ∉ keysOf r) (hnd : (keysOf trans).Nodup) :
    mergeTransitive r trans = r ++ trans.map bumpItem := by
  induction trans generalizing r with
  | nil => simp [mergeTransitive]
  | cons q rest ih =>
    simp only [keysOf_cons, List.nodup_cons] at hnd
    have hq : q.1 ∉ keysOf r := hdisj q.1 (by simp [keysOf])
    have hlook : dlookup r q.1 = none := dlookup_eq_none_of_not_mem_keys hq
    have hset : dictSet r q.1 ⟨q.1, q.2.prev_vertex, q.2.distance + 1, q.2.edge_labels⟩ =
        r ++ [bumpItem q] := dictSet_of_not_mem_keys _ hq
    have hdisj' : ∀ k ∈ keysOf rest, k ∉ keysOf (r ++ [bumpItem q]) := by
      intro k hk
      simp only [keysOf_append, List.mem_append]
      rintro (hr | hr)
      · exact hdisj k (List.mem_cons.mpr (Or.inr hk)) hr
      · simp only [keysOf, bumpItem, List.map_cons, List.map_nil, List.mem_singleton] at hr
        exact hnd.1 (hr ▸ hk)
    have step : mergeTransitive r (q :: rest) = mergeTransitive (r ++ [bumpItem q]) rest := by
      simp only [mergeTransitive, List.foldl_cons, hlook, hset]
    rw [step, ih hdisj' hnd.2]
    simp

/-- The loop invariant for the `for to_vertex, edge_labels in ...` fold of
`_reachable_vertexes`, given the recursive call's contract `hrec`. -/
theorem reachFold_inv
    (recur : V → List V → Option (ReachDict V L × List V))
    (hrec : ∀ tv vis R v', recur tv vis = some (R, v') → AuxInv tv vis R v')
    (fv : V) :
    ∀ (dests : List (V × LSet L)) (r₀ : ReachDict V L) (vis : List V)
      (R : ReachDict V L) (v' : List V),
      fv ∈ vis →
      (keysOf r₀).Nodup →
      (∀ k ∈ keysOf r₀, k ∈ vis ∧ k ≠ fv) →
      ItemInv fv r₀ →
      dests.foldl (reachStep fv recur) (some (r₀, vis)) = some (R, v') →
      (∀ x ∈ vis, x ∈ v') ∧ (keysOf R).Nodup ∧
      (∀ k ∈ keysOf R, k ∈ v' ∧ k ≠ fv ∧ (k ∈ keysOf r₀ ∨ k ∉ vis)) ∧
      ItemInv fv R := by
  intro dests
  induction dests with
  | nil =>
    intro r₀ vis R v' _hfv hnd hkeys hinv h
    simp only [List.foldl_nil, Option.some.injEq, Prod.mk.injEq] at h
    obtain ⟨rfl, rfl⟩ := h
    exact ⟨fun x hx => hx, hnd,
      fun k hk => ⟨(hkeys k hk).1, (hkeys k hk).2, Or.inl hk⟩, hinv⟩
  | cons d rest ih =>
    intro r₀ vis R v' hfv hnd hkeys hinv h
    rw [List.foldl_cons] at h
    by_cases hd : d.1 ∈ vis
    · rw [reachStep_mem fv recur hd] at h
      exact ih r₀ vis R v' hfv hnd hkeys hinv h
    · -- d.1 is a fresh direct child
      have hdk : d.1 ∉ keysOf r₀ := fun hk => hd (hkeys d.1 hk).1
      have hlook : dlookup r₀ d.1 = none := dlookup_eq_none_of_not_mem_keys hdk
      cases hq : recur d.1 vis with
      | none =>
        have hstep : reachStep fv recur (some (r₀, vis)) d = none := by
          simp only [reachStep, hd, if_false, hlook, hq]
        rw [hstep, reachFold_none] at h
        exact absurd h (by simp)
      | some res =>
        obtain ⟨tr, vis₂⟩ := res
        obtain ⟨hsub₂, htv₂, hndt, hkt, hit⟩ := hrec d.1 vis tr vis₂ hq
        have hkeys₁ : keysOf (r₀ ++ [(d.1, (⟨d.1, fv, 1, d.2⟩ : PathItem V L))]) =
            keysOf r₀ ++ [d.1] := by simp [keysOf]
        have hdisj : ∀ k ∈ keysOf tr,
            k ∉ keysOf (r₀ ++ [(d.1, (⟨d.1, fv, 1, d.2⟩ : PathItem V L))]) := by
          intro k hk
          rw [hkeys₁]
          simp only [List.mem_append, List.mem_singleton]
          rintro (hr | hr)
          · exact (hkt k hk).1 (hkeys k hr).1
          · exact (hkt k hk).2.1 hr
        have hstep : reachStep fv recur (some (r₀, vis)) d =
            some (r₀ ++ [(d.1, ⟨d.1, fv, 1, d.2⟩)] ++ tr.map bumpItem, vis₂) := by
          simp only [reachStep, hd, if_false, hlook, hq,
            dictSet_of_not_mem_keys _ hdk, mergeTransitive_of_disjoint hdisj hndt]
        rw [hstep] at h
        set r₂ : ReachDict V L :=
          r₀ ++ [(d.1, ⟨d.1, fv, 1, d.2⟩)] ++ tr.map bumpItem with hr₂
        have hkeys₂ : keysOf r₂ = keysOf r₀ ++ [d.1] ++ keysOf tr := by
          simp [hr₂, hkeys₁]
        -- preconditions for the tail of the loop
        have hfv₂ : fv ∈ vis₂ := hsub₂ fv hfv
        have hnd₂ : (keysOf r₂).Nodup := by
          rw [hkeys₂]
          refine List.Nodup.append (List.Nodup.append hnd (List.nodup_singleton _) ?_)
            hndt ?_
          · intro a ha hb
            rw [List.mem_singleton] at hb
            exact hd (hb ▸ (hkeys a ha).1)
          · intro a ha hb
            rcases List.mem_append.mp ha with ha | ha
            · exact (hkt a hb).1 (hkeys a ha).1
            · rw [List.mem_singleton] at ha
              exact (hkt a hb).2.1 ha
        have hkeys₂' : ∀ k ∈ keysOf r₂, k ∈ vis₂ ∧ k ≠ fv := by
          intro k hk
          rw [hkeys₂] at hk
          rcases List.mem_append.mp hk with hk | hk
          · rcases List.mem_append.mp hk with hk | hk
            · exact ⟨hsub₂ k (hkeys k hk).1, (hkeys k hk).2⟩
            · rw [List.mem_singleton] at hk
              subst hk
              exact ⟨htv₂, fun he => hd (he ▸ hfv)⟩
          · exact ⟨(hkt k hk).2.2, fun he => (hkt k hk).1 (he ▸ hfv)⟩
        have hinv₂ : ItemInv fv r₂ := by
          intro pr hpr
          rw [hr₂] at hpr
          rw [List.append_assoc] at hpr
          rcases List.mem_append.mp hpr with hpr | hpr
          · obtain ⟨h₁, h₂, h₃, h₄⟩ := hinv pr hpr
            refine ⟨h₁, h₂, h₃, fun hgt => ?_⟩
            obtain ⟨qr, hqr, hq₁, hq₂⟩ := h₄ hgt
            exact ⟨qr, by simp [hr₂, List.mem_append.mpr (Or.inl hqr)], hq₁, hq₂⟩
          · rcases List.mem_append.mp hpr with hpr | hpr
            · rw [List.mem_singleton] at hpr
              subst hpr
              exact ⟨rfl, le_refl 1, fun _ => rfl, fun hgt => absurd hgt (by simp)⟩
            · obtain ⟨q, hq_mem, rfl⟩ := List.mem_map.mp hpr
              obtain ⟨h₁, h₂, h₃, h₄⟩ := hit q hq_mem
              refine ⟨rfl, by simp [bumpItem], ?_, ?_⟩
              · intro habs
                simp only [bumpItem] at habs
                omega
              · intro _
                rcases Nat.lt_or_ge 1 q.2.distance with hgt | hle
                · obtain ⟨qr, hqr, hq₁, hq₂⟩ := h₄ hgt
                  refine ⟨bumpItem qr, ?_, ?_, ?_⟩
                  · simp only [hr₂]
                    exact List.mem_append.mpr (Or.inr (List.mem_map_of_mem _ hqr))
                  · simpa [bumpItem] using hq₁
                  · simp only [bumpItem]
                    omega
                · have hone : q.2.distance = 1 := le_antisymm hle h₂
                  refine ⟨(d.1, ⟨d.1, fv, 1, d.2⟩), ?_, ?_, ?_⟩
                  · simp [hr₂]
                  · simpa [bumpItem, hone] using (h₃ hone).symm
                  · simp [bumpItem, hone]
        obtain ⟨hpost₁, hpost₂, hpost₃, hpost₄⟩ :=
          ih r₂ vis₂ R v' hfv₂ hnd₂ hkeys₂' hinv₂ h
        refine ⟨fun x hx => hpost₁ x (hsub₂ x hx), hpost₂, ?_, hpost₄⟩
        intro k hk
        obtain ⟨hv', hne, hsrc⟩ := hpost₃ k hk
        refine ⟨hv', hne, ?_⟩
        rcases hsrc with hk₂ | hk₂
        · rw [hkeys₂] at hk₂
          rcases List.mem_append.mp hk₂ with hk₂ | hk₂
          · rcases List.mem_append.mp hk₂ with hk₂ | hk₂
            · exact Or.inl hk₂
            · rw [List.mem_singleton] at hk₂
              exact Or.inr (hk₂ ▸ hd)
          · exact Or.inr ((hkt k hk₂).1)
        · exact Or.inr (fun hkv => hk₂ (hsub₂ k hkv))

/-- The contract of `_reachable_vertexes(from_vertex, visited)`, by induction
on the fuel. -/
theorem reachAux_inv (g : DirectedGraph V L) :
    ∀ (fuel : Nat) (fv : V) (visited : List V) (R : ReachDict V L) (v' : List V),
      reachAux g fuel fv visited = some (R, v') → AuxInv fv visited R v' := by
  intro fuel
  induction fuel with
  | zero =>
    intro fv vis R v' h
    simp [reachAux] at h
  | succ f ih =>
    intro fv vis R v' h
    have h' : (g.destinations fv).foldl
        (reachStep fv (fun tv vis => reachAux g f tv vis))
        (some ([], setInsert vis fv)) = some (R, v') := h
    obtain ⟨hpost₁, hpost₂, hpost₃, hpost₄⟩ :=
      reachFold_inv (fun tv vis => reachAux g f tv vis) ih fv
        (g.destinations fv) [] (setInsert vis fv) R v'
        (by simp) List.nodup_nil (by simp [keysOf]) (fun pr hpr => absurd hpr (by simp))
        h'
    refine ⟨fun x hx => hpost₁ x (by simp [hx]), hpost₁ fv (by simp), hpost₂, ?_, hpost₄⟩
    intro k hk
    obtain ⟨hv', hne, hsrc⟩ := hpost₃ k hk
    rcases hsrc with hk₂ | hk₂
    · exact absurd hk₂ (by simp [keysOf])
    · rw [mem_setInsert] at hk₂
      push_neg at hk₂
      exact ⟨hk₂.1, hk₂.2, hv'⟩

/-- The root is never a key of its own reachable set. -/
theorem reachable_vertexes_root_not_key (g : DirectedGraph V L) (v : V) :
    v ∉ keysOf (g.reachable_vertexes v) := by
  unfold reachable_vertexes
  cases h : reachAux g (reachFuel g) v [] with
  | none => simp [keysOf]
  | some res =>
    obtain ⟨R, v'⟩ := res
    obtain ⟨_, _, _, hkeys, _⟩ := reachAux_inv g (reachFuel g) v [] R v' h
    exact fun hk => (hkeys v hk).2.1 rfl

/-- The keys of a reachable set are duplicate-free (it is a Python dict). -/
theorem reachable_vertexes_nodup_keys (g : DirectedGraph V L) (v : V) :
    (keysOf (g.reachable_vertexes v)).Nodup := by
  unfold reachable_vertexes
  cases h : reachAux g (reachFuel g) v [] with
  | none => simp [keysOf]
  | some res =>
    obtain ⟨R, v'⟩ := res
    exact (reachAux_inv g (reachFuel g) v [] R v' h).2.2.1

/-- The items of a reachable set have the `ItemInv` shape. -/
theorem reachable_vertexes_itemInv (g : DirectedGraph V L) (v : V) :
    ItemInv v (g.reachable_vertexes v) := by
  unfold reachable_vertexes
  cases h : reachAux g (reachFuel g) v [] with
  | none => intro pr hpr; exact absurd hpr (by simp)
  | some res =>
    obtain ⟨R, v'⟩ := res
    exact (reachAux_inv g (reachFuel g) v [] R v' h).2.2.2.2

end ReachInv

/-! ## Path reconstruction over well-shaped reachability dicts -/

section PathChain

open DirectedGraph

variable {V L : Type} [DecidableEq V] [DecidableEq L]

theorem pathAux_of_itemInv {root : V} {R : ReachDict V L}
    (hnd : (keysOf R).Nodup) (hinv : ItemInv root R) :
    ∀ (fuel : Nat) (pr : V × PathItem V L), pr ∈ R → pr.2.distance ≤ fuel →
      ∃ chain, pathAux fuel pr.2 R = some chain ∧ chain.length = pr.2.distance ∧
        chain.getLast? = some pr.2 ∧ chain.head?.map (fun i => i.distance) = some 1 := by
  intro fuel
  induction fuel with
  | zero =>
    intro pr hmem hle
    have := (hinv pr hmem).2.1
    omega
  | succ f ih =>
    intro pr hmem hle
    obtain ⟨hv, h1, hprev1, hprevd⟩ := hinv pr hmem
    by_cases hd1 : pr.2.distance = 1
    · refine ⟨[pr.2], ?_, by simp [hd1], by simp, by simp [hd1]⟩
      simp [pathAux, hd1]
    · have hgt : 1 < pr.2.distance := lt_of_le_of_ne h1 (Ne.symm hd1)
      obtain ⟨qr, hqr, hq1, hq2⟩ := hprevd hgt
      have hpair : (pr.2.prev_vertex, qr.2) ∈ R := by
        obtain ⟨a, b⟩ := qr
        simp only at hq1
        exact hq1 ▸ hqr
      have hlook : dlookup R pr.2.prev_vertex = some qr.2 :=
        dlookup_of_mem_of_nodup hpair hnd
      have hqd : qr.2.distance ≤ f := by omega
      obtain ⟨chain, hc, hlen, hlast, hhead⟩ := ih qr hqr hqd
      refine ⟨chain ++ [pr.2], ?_, ?_, ?_, ?_⟩
      · simp [pathAux, hd1, hlook, hc]
      · simp [hlen]
        omega
      · simp
      · have hne : chain ≠ [] := by
          intro habs
          rw [habs] at hlen
          have := (hinv qr hqr).2.1
          simp at hlen
          omega
        cases chain with
        | nil => exact absurd rfl hne
        | cons x xs => simpa using hhead

/-- On a dict whose items satisfy `ItemInv`, `path_from_root` succeeds and
returns a chain of `distance` items ending at the item, starting at
distance 1. -/
theorem path_from_root_of_itemInv {root : V} {R : ReachDict V L}
    (hnd : (keysOf R).Nodup) (hinv : ItemInv root R)
    (pr : V × PathItem V L) (hmem : pr ∈ R) :
    ∃ chain, pr.2.path_from_root R = some chain ∧ chain.length = pr.2.distance ∧
      chain.getLast? = some pr.2 ∧ chain.head?.map (fun i => i.distance) = some 1 :=
  pathAux_of_itemInv hnd hinv pr.2.distance pr hmem (le_refl _)

end PathChain

/-! ## Claim theorems: the traversal (C1, C2, C9) -/

section ClaimsReach

open DirectedGraph

/-- C1: for the 4-cycle built from edges `a->b`, `b->c`, `c->d`, `d->b` (one
label each), `reachable_vertexes("a")` maps exactly `b`, `c`, `d` to distances
1, 2, 3 (with the DFS-discovery predecessors); and `reachable_vertexes("c")`
maps exactly `d` to distance 1 and `b` to distance 2 with predecessor `d`. -/
theorem c1_cycle_reachable_distances :
    (keysOf (cycleGraph.reachable_vertexes "a") = ["b", "c", "d"] ∧
      dlookup (cycleGraph.reachable_vertexes "a") "b" = some ⟨"b", "a", 1, ["a->b"]⟩ ∧
      dlookup (cycleGraph.reachable_vertexes "a") "c" = some ⟨"c", "b", 2, ["b->c"]⟩ ∧
      dlookup (cycleGraph.reachable_vertexes "a") "d" = some ⟨"d", "c", 3, ["c->d"]⟩) ∧
    (keysOf (cycleGraph.reachable_vertexes "c") = ["d", "b"] ∧
      dlookup (cycleGraph.reachable_vertexes "c") "d" = some ⟨"d", "c", 1, ["c->d"]⟩ ∧
      dlookup (cycleGraph.reachable_vertexes "c") "b" = some ⟨"b", "d", 2, ["d->b"]⟩) := by
  decide

/-- C2: for every directed graph and every vertex `v` of it,
`reachable_vertexes(v)` never contains `v` as a key — even with a literal
self-edge `v -> v`; in particular, on the graph whose only edge is the
self-edge `a -> a` the result is the empty dict. -/
theorem c2_root_excluded :
    (∀ {V L : Type} [DecidableEq V] [DecidableEq L] (g : DirectedGraph V L) (v : V),
      v ∈ g.vertexes → dlookup (g.reachable_vertexes v) v = none) ∧
    selfEdgeGraph.reachable_vertexes "a" = [] := by
  constructor
  · intro V L _ _ g v _hv
    exact dlookup_eq_none_of_not_mem_keys (reachable_vertexes_root_not_key g v)
  · decide

/-- Witness for C2 at a concrete input: the self-edge graph and its only
vertex `a`. -/
theorem c2_root_excluded_witness :
    dlookup (selfEdgeGraph.reachable_vertexes "a") "a" = none :=
  c2_root_excluded.1 selfEdgeGraph "a" (by decide)

/-- C9: every `PathItem` in `R = reachable_vertexes(root)` has a predecessor
chain inside `R`: a distance-1 item points back at `root`, a deeper item's
predecessor is a key of `R` at distance exactly one less, and consequently
`path_from_root` terminates with a chain of `distance` items ending at the
item whose first element has distance 1. -/
theorem c9_prev_chain {V L : Type} [DecidableEq V] [DecidableEq L]
    (g : DirectedGraph V L) (root : V) (pr : V × PathItem V L)
    (hpr : pr ∈ g.reachable_vertexes root) :
    (pr.2.distance = 1 → pr.2.prev_vertex = root) ∧
    (1 < pr.2.distance →
      ∃ q, dlookup (g.reachable_vertexes root) pr.2.prev_vertex = some q ∧
        q.distance = pr.2.distance - 1) ∧
    (∃ chain, pr.2.path_from_root (g.reachable_vertexes root) = some chain ∧
      chain.length = pr.2.distance ∧ chain.getLast? = some pr.2 ∧
      chain.head?.map (fun i => i.distance) = some 1) := by
  have hnd := reachable_vertexes_nodup_keys g root
  have hinv := reachable_vertexes_itemInv g root
  obtain ⟨hv, h1, hp1, hpd⟩ := hinv pr hpr
  refine ⟨hp1, ?_, ?_⟩
  · intro hgt
    obtain ⟨qr, hqr, hq1, hq2⟩ := hpd hgt
    have hpair : (pr.2.prev_vertex, qr.2) ∈ g.reachable_vertexes root := by
      obtain ⟨a, b⟩ := qr
      simp only at hq1
      exact hq1 ▸ hqr
    exact ⟨qr.2, dlookup_of_mem_of_nodup hpair hnd, by omega⟩
  · exact path_from_root_of_itemInv hnd hinv pr hpr

/-- Witness for C9: the distance-3 item of the 4-cycle's reachable set. -/
theorem c9_prev_chain_witness :
    (((⟨"d", "c", 3, ["c->d"]⟩ : PathItem String String).distance = 1 →
      ("c" : String) = "a") ∧
    (1 < (⟨"d", "c", 3, ["c->d"]⟩ : PathItem String String).distance →
      ∃ q, dlookup (cycleGraph.reachable_vertexes "a") "c" = some q ∧
        q.distance = 3 - 1) ∧
    (∃ chain, (⟨"d", "c", 3, ["c->d"]⟩ : PathItem String String).path_from_root
        (cycleGraph.reachable_vertexes "a") = some chain ∧
      chain.length = 3 ∧
      chain.getLast? = some ⟨"d", "c", 3, ["c->d"]⟩ ∧
      chain.head?.map (fun i => i.distance) = some 1)) :=
  c9_prev_chain cycleGraph "a" ("d", ⟨"d", "c", 3, ["c->d"]⟩) (by decide)

end ClaimsReach

/-! ## Claim theorems: files_connection (C10) -/

section ClaimsConnection

open DirectedGraph

theorem dlookup_map_self {V : Type} [DecidableEq V] {α : Type} {l : List V}
    (f : V → α) {x : V} (hx : x ∈ l) :
    dlookup (l.map (fun v => (v, f v))) x = some (f x) := by
  induction l with
  | nil => simp at hx
  | cons y ys ih =>
    by_cases hxy : y = x
    · subst hxy
      simp [dlookup]
    · rcases List.mem_cons.mp hx with h | h
      · exact absurd h.symm hxy
      · simp [dlookup, hxy, ih h]

theorem dlookup_reports_for {g : DirectedGraph String String} {s : String}
    (hs : s ∈ Dependencies.vertexList g) :
    dlookup (Dependencies.reports_for g) s =
      some { filename := s
             required_dependencies := g.reachable_vertexes s
             provided_dependencies := g.reversed_graph.reachable_vertexes s } := by
  simp only [Dependencies.reports_for]
  exact dlookup_map_self
    (fun filename =>
      ({ filename := filename
         required_dependencies := g.reachable_vertexes filename
         provided_dependencies := g.reversed_graph.reachable_vertexes filename } :
        DependencyReport)) hs

theorem all_dependencies_dict_true_eq {d : Dependencies}
    (hcache : d.ValidTrueCache) :
    d.all_dependencies_dict true =
      (Dependencies.reports_for d.dependency_graph,
        { d with dependency_dicts :=
            (some (Dependencies.reports_for d.dependency_graph),
              d.dependency_dicts.2) }) := by
  rcases hcache with h | h
  · simp [Dependencies.all_dependencies_dict, h]
  · simp only [Dependencies.all_dependencies_dict, h, if_true]
    rw [show (some (Dependencies.reports_for d.dependency_graph),
          d.dependency_dicts.2) = d.dependency_dicts from by rw [← h]]

theorem mem_vertexList_of_mem_vertexes {g : DirectedGraph String String} {s : String}
    (hs : s ∈ g.vertexes) : s ∈ Dependencies.vertexList g := by
  simp only [vertexes, List.mem_toFinset] at hs
  simpa [Dependencies.vertexList] using hs

/-- C10 (counterexample): on the graph with vertices `x`, `x.y` and the edge
`x -> x.y`, the name `a = "x.y.z"` has short name `"x.y"`, a vertex of the
graph, yet `files_connection(a, a)` is non-empty: the nested
`required_dependencies` calls shorten the name a second time, to `"x"`, whose
reachable set does contain `"x.y"` — twice, once per direction. -/
theorem c10_counterexample :
    short_filename "x.y.z" ∈ dottedDeps.dependency_graph.vertexes ∧
    (dottedDeps.files_connection "x.y.z" "x.y.z").1 =
      some [[⟨"x.y", "x", 1, ["s"]⟩], [⟨"x.y", "x", 1, ["s"]⟩]] ∧
    (dottedDeps.files_connection "x.y.z" "x.y.z").1 ≠ some [] := by
  refine ⟨by decide, by decide, ?_⟩
  intro h
  rw [show (dottedDeps.files_connection "x.y.z" "x.y.z").1 =
    some [[⟨"x.y", "x", 1, ["s"]⟩], [⟨"x.y", "x", 1, ["s"]⟩]] from by decide] at h
  simp at h

/-- C10 (amended): for every `Dependencies` state whose include-marked cache
the program could have produced, and every file name `a` whose short name `s`
is a vertex of the dependency graph and is itself fully shortened
(`short_filename s = s`, i.e. no second extension for the nested
`required_dependencies` calls to strip), `files_connection(a, a)` returns the
empty list, because `s` is never a member of its own reachable set. -/
theorem c10_self_connection_empty (d : Dependencies) (a : String)
    (hcache : d.ValidTrueCache)
    (hfix : short_filename (short_filename a) = short_filename a)
    (hv : short_filename a ∈ d.dependency_graph.vertexes) :
    (d.files_connection a a).1 = some [] := by
  have hvl : short_filename a ∈ Dependencies.vertexList d.dependency_graph :=
    mem_vertexList_of_mem_vertexes hv
  have hroot := reachable_vertexes_root_not_key d.dependency_graph (short_filename a)
  have hroot' : dlookup (d.dependency_graph.reachable_vertexes (short_filename a))
      (short_filename a) = none := dlookup_eq_none_of_not_mem_keys hroot
  have hreq₁ : d.required_dependencies (short_filename a) true =
      (some (d.dependency_graph.reachable_vertexes (short_filename a)),
        { d with dependency_dicts :=
            (some (Dependencies.reports_for d.dependency_graph),
              d.dependency_dicts.2) }) := by
    unfold Dependencies.required_dependencies
    rw [hfix]
    rw [all_dependencies_dict_true_eq hcache]
    simp [dlookup_reports_for hvl]
  set d₁ : Dependencies :=
    { d with dependency_dicts :=
        (some (Dependencies.reports_for d.dependency_graph),
          d.dependency_dicts.2) } with hd₁
  have hcache₁ : d₁.ValidTrueCache := Or.inr rfl
  have hreq₂ : d₁.required_dependencies (short_filename a) true =
      (some (d.dependency_graph.reachable_vertexes (short_filename a)), d₁) := by
    unfold Dependencies.required_dependencies
    rw [hfix]
    rw [all_dependencies_dict_true_eq hcache₁]
    simp [hd₁, dlookup_reports_for hvl]
  simp only [Dependencies.files_connection, hreq₁, hroot', hreq₂]

/-- Witness for C10 (amended): `dottedDeps` and the already-short vertex
`"x"`. -/
theorem c10_self_connection_empty_witness :
    (dottedDeps.files_connection "x" "x").1 = some [] :=
  c10_self_connection_empty dottedDeps "x" (Or.inl rfl) (by decide) (by decide)

end ClaimsConnection

/-! ## Claim theorems: dump errors (C7), PathItem equality/hash (C8),
most_used_file (C3) -/

section ClaimsFacade

open DirectedGraph

/-- C7: dumping an empty dependency graph raises the empty-graph assertion and
produces no output, and `dump_subgraph` raises whenever the requested subgraph
is empty; in the source the `assert` precedes `write_dot_file`, the call that
opens the output file, so nothing is written. -/
theorem c7_dump_empty_graph_raises :
    (∀ (d : Dependencies) (write_edge_labels : Bool),
      d.dependency_graph.is_empty = true →
      d.dump write_edge_labels = Except.error Dependencies.DumpError.emptyGraph) ∧
    (∀ (d : Dependencies) (vertexes : Finset String) (write_edge_labels : Bool),
      (d.dependency_graph.subgraph vertexes).is_empty = true →
      d.dump_subgraph vertexes write_edge_labels =
        Except.error Dependencies.DumpError.emptyGraph) := by
  constructor
  · intro d wel h
    simp [Dependencies.dump, h]
  · intro d vs wel h
    simp [Dependencies.dump_subgraph, h]

/-- Witness for C7: the empty `Dependencies` state, and an empty subgraph of a
non-empty one. -/
theorem c7_dump_empty_graph_raises_witness :
    emptyDeps.dump false = Except.error Dependencies.DumpError.emptyGraph ∧
    markedDemoDeps.dump_subgraph ∅ false =
      Except.error Dependencies.DumpError.emptyGraph :=
  ⟨c7_dump_empty_graph_raises.1 emptyDeps false (by decide),
   c7_dump_empty_graph_raises.2 markedDemoDeps ∅ false (by decide)⟩

/-- C8 (evaluation at the failing input): `PathItem.__eq__` is indeed
componentwise equality of the four fields (labels compared as sets), but
`PathItem.__hash__` is *not* defined on the items the program constructs:
the item `PathItem("b", "a", 1, {"a->b"})` produced by `reachable_vertexes`
on the chain `a->b` carries a mutable `set`, and `hash(set)` raises
`TypeError` (modelled by `pyHash = none`) whatever the string hash is. -/
theorem c8_eq_componentwise_hash_raises :
    (∀ p q : PathItem String String,
      p.pyEq q = true ↔
        (p.vertex = q.vertex ∧ p.prev_vertex = q.prev_vertex ∧
          p.distance = q.distance ∧ ∀ l, l ∈ p.edge_labels ↔ l ∈ q.edge_labels)) ∧
    dlookup (chainGraph.reachable_vertexes "a") "b" =
      some ⟨"b", "a", 1, ["a->b"]⟩ ∧
    ∀ hV : String → Nat,
      PathItem.pyHash hV (⟨"b", "a", 1, ["a->b"]⟩ : PathItem String String) = none := by
  refine ⟨?_, by decide, fun hV => rfl⟩
  intro p q
  simp only [PathItem.pyEq, Bool.and_eq_true, decide_eq_true_eq, lsBeq_iff]
  constructor
  · rintro ⟨⟨⟨h₁, h₂⟩, h₃⟩, h₄⟩
    exact ⟨h₁, h₂, h₃, h₄⟩
  · rintro ⟨h₁, h₂, h₃, h₄⟩
    exact ⟨⟨⟨h₁, h₂⟩, h₃⟩, h₄⟩

/-- C3 (evaluation at the failing input): `most_used_file` ranks the reports
of `all_dependencies(include_marked_files=True)` — `_top_files` drops the
`include_marked_files=False` its caller passes — so on `markedDemoDeps`
(where `m` is marked and most provided) the top report is the marked file
`m`, with counts computed on the full graph; the marked-excluding variant the
claim prescribes contains no `m` at all. -/
theorem c3_most_used_file_includes_marked :
    (markedDemoDeps.most_used_file 1).1.map DependencyReport.filename = ["m"] ∧
    "m" ∈ markedDemoDeps.marked_files ∧
    (markedDemoDeps.all_dependencies false).1.map DependencyReport.filename =
      ["a", "b"] := by
  decide

end ClaimsFacade

/-! ## Claim theorems: the two memoised caches (C6) -/

section ClaimsCache

open Dependencies

theorem all_dependencies_dict_of_slot_some {d : Dependencies} {flag : Bool}
    {dict : ReportsDict} (h : cacheSlot d flag = some dict) :
    d.all_dependencies_dict flag = (dict, d) := by
  unfold Dependencies.all_dependencies_dict
  rw [show (if flag then d.dependency_dicts.1 else d.dependency_dicts.2) = some dict
    from h]

theorem slot_after_all_dependencies_dict (d : Dependencies) (flag : Bool) :
    cacheSlot (d.all_dependencies_dict flag).2 flag =
      some (d.all_dependencies_dict flag).1 ∧
    (d.all_dependencies_dict flag).2.dependency_graph = d.dependency_graph ∧
    (d.all_dependencies_dict flag).2.marked_files = d.marked_files := by
  unfold Dependencies.all_dependencies_dict
  cases hslot : (if flag then d.dependency_dicts.1 else d.dependency_dicts.2) with
  | some dict => exact ⟨hslot, rfl, rfl⟩
  | none =>
    cases flag <;> simp [cacheSlot]

@[simp] theorem mark_files_dependency_graph (d : Dependencies) (fs : List String) :
    (d.mark_files fs).dependency_graph = d.dependency_graph := rfl

@[simp] theorem mark_files_dependency_dicts (d : Dependencies) (fs : List String) :
    (d.mark_files fs).dependency_dicts = d.dependency_dicts := rfl

@[simp] theorem cacheSlot_mark_files (d : Dependencies) (fs : List String)
    (flag : Bool) : cacheSlot (d.mark_files fs) flag = cacheSlot d flag := rfl

/-- C6: once `all_dependencies(flag)` has been called, the per-flag cache is
populated and never invalidated: a subsequent `mark_files` changes only the
marked-files set (graph and both caches untouched), and every later
`all_dependencies` / `required_dependencies` / `provided_dependencies` call
for the same flag returns the reports of the original cache without touching
the state again. -/
theorem c6_caches_survive_mark_files (d : Dependencies) (flag : Bool)
    (fs : List String) (fn : String) :
    ((d.all_dependencies flag).2.mark_files fs).dependency_graph =
      d.dependency_graph ∧
    ((d.all_dependencies flag).2.mark_files fs).dependency_dicts =
      (d.all_dependencies flag).2.dependency_dicts ∧
    ((d.all_dependencies flag).2.mark_files fs).marked_files =
      ((fs.map short_filename) ++ [UNDEFINED_FILE]).toFinset ∧
    ((d.all_dependencies flag).2.mark_files fs).all_dependencies flag =
      ((d.all_dependencies flag).1, (d.all_dependencies flag).2.mark_files fs) ∧
    (((d.all_dependencies flag).2.mark_files fs).required_dependencies fn flag).1 =
      ((d.all_dependencies flag).2.required_dependencies fn flag).1 ∧
    (((d.all_dependencies flag).2.mark_files fs).required_dependencies fn flag).2 =
      (d.all_dependencies flag).2.mark_files fs ∧
    (((d.all_dependencies flag).2.mark_files fs).provided_dependencies fn flag).1 =
      ((d.all_dependencies flag).2.provided_dependencies fn flag).1 ∧
    (((d.all_dependencies flag).2.mark_files fs).provided_dependencies fn flag).2 =
      (d.all_dependencies flag).2.mark_files fs := by
  obtain ⟨hslot, hgraph, _hmarked⟩ := slot_after_all_dependencies_dict d flag
  have hdict₂ : (((d.all_dependencies_dict flag).2).mark_files fs).all_dependencies_dict
        flag =
      ((d.all_dependencies_dict flag).1,
        ((d.all_dependencies_dict flag).2).mark_files fs) := by
    refine all_dependencies_dict_of_slot_some ?_
    rw [cacheSlot_mark_files]
    exact hslot
  have hdict₁ : ((d.all_dependencies_dict flag).2).all_dependencies_dict flag =
      ((d.all_dependencies_dict flag).1, (d.all_dependencies_dict flag).2) :=
    all_dependencies_dict_of_slot_some hslot
  refine ⟨hgraph, rfl, rfl, ?_, ?_, ?_, ?_, ?_⟩
  · simp only [Dependencies.all_dependencies, hdict₂]
  · simp only [Dependencies.all_dependencies, Dependencies.required_dependencies,
      hdict₂, hdict₁]
  · simp only [Dependencies.all_dependencies, Dependencies.required_dependencies, hdict₂]
  · simp only [Dependencies.all_dependencies, Dependencies.provided_dependencies,
      hdict₂, hdict₁]
  · simp only [Dependencies.all_dependencies, Dependencies.provided_dependencies, hdict₂]

end ClaimsCache

/-! ## Builder characterisation toolbox -/

section BuilderLemmas

open DirectedGraph DirectedGraph.Builder

variable {V L : Type} {α β : Type} [DecidableEq V] [DecidableEq L]

theorem any_fst_eq_iff (m : List (V × α)) (k : V) :
    (m.any (fun p => p.1 = k)) = true ↔ k ∈ keysOf m := by
  simp [List.any_eq_true, keysOf, List.mem_map]

theorem dlookup_map_modify (m : List (V × α)) (f : V) (g : α → α) (y : V) :
    dlookup (m.map (fun p => if p.1 = f then (p.1, g p.2) else p)) y =
      if y = f then (dlookup m f).map g else dlookup m y := by
  induction m with
  | nil => by_cases h : y = f <;> simp [h]
  | cons p r ih =>
    by_cases hpf : p.1 = f
    · by_cases hpy : p.1 = y
      · have hyf : y = f := hpy ▸ hpf
        simp [dlookup, hpf, hpy, hyf]
      · have hyf : ¬y = f := fun h => hpy (hpf.trans h.symm)
        have hfy : ¬f = y := fun h => hyf h.symm
        simp [dlookup, hpf, hpy, ih, hyf, hfy]
    · by_cases hpy : p.1 = y
      · have hyf : ¬y = f := fun h => hpf (hpy.symm ▸ h)
        simp [dlookup, hpf, hpy, hyf]
      · simp [dlookup, hpf, hpy, ih]

theorem dlookup_map_value (m : List (V × α)) (g : α → β) (y : V) :
    dlookup (m.map (fun p => (p.1, g p.2))) y = (dlookup m y).map g := by
  induction m with
  | nil => simp
  | cons p r ih =>
    by_cases hpy : p.1 = y <;> simp [dlookup, hpy, ih]

theorem keysOf_map_modify (m : List (V × α)) (f : V) (g : α → α) :
    keysOf (m.map (fun p => if p.1 = f then (p.1, g p.2) else p)) = keysOf m := by
  simp only [keysOf, List.map_map]
  congr 1
  funext p
  by_cases h : p.1 = f <;> simp [h]

theorem keysOf_map_value (m : List (V × α)) (g : α → β) :
    keysOf (m.map (fun p => (p.1, g p.2))) = keysOf m := by
  simp [keysOf, List.map_map]

@[simp] theorem mem_setList_foldl (l : List L) (acc : LSet L) (x : L) :
    x ∈ l.foldl setInsert acc ↔ x ∈ acc ∨ x ∈ l := by
  induction l generalizing acc with
  | nil => simp
  | cons a r ih =>
    simp only [List.foldl_cons, ih, mem_setInsert, List.mem_cons]
    tauto

theorem nodup_setList_foldl (l : List L) (acc : LSet L) (h : acc.Nodup) :
    (l.foldl setInsert acc).Nodup := by
  induction l generalizing acc with
  | nil => exact h
  | cons a r ih => exact ih _ (setInsert_nodup h a)

theorem setList_foldl_eq_append (l : List L) : ∀ acc : LSet L,
    l.Nodup → (∀ x ∈ l, x ∉ acc) → l.foldl setInsert acc = acc ++ l := by
  induction l with
  | nil => intro acc _ _; simp
  | cons a r ih =>
    intro acc hl hdisj
    rw [List.nodup_cons] at hl
    have ha : a ∉ acc := hdisj a (by simp)
    have hdisj2 : ∀ x ∈ r, x ∉ acc ++ [a] := by
      intro x hx
      simp only [List.mem_append, List.mem_singleton]
      rintro (hx2 | rfl)
      · exact hdisj x (by simp [hx]) hx2
      · exact hl.1 hx
    rw [List.foldl_cons, setInsert, if_neg ha, ih (acc ++ [a]) hl.2 hdisj2]
    simp

theorem setList_eq_self {l : List L} (hl : l.Nodup) : setList l = l := by
  simpa [setList] using setList_foldl_eq_append l [] hl (by simp)

theorem setList_ne_nil {l : List L} (hne : l ≠ []) : setList l ≠ [] := by
  cases l with
  | nil => exact absurd rfl hne
  | cons a r =>
    intro habs
    have : a ∈ setList (a :: r) := by simp [setList]
    rw [habs] at this
    simp at this

/-- `add_vertex` and pending-edge lookups. -/
theorem pend_add_vertex (b : Builder V L) (v x : V) :
    dlookup (b.add_vertex v).edges x =
      if x = v then some ((dlookup b.edges v).getD []) else dlookup b.edges x := by
  unfold add_vertex
  by_cases hv : v ∈ keysOf b.edges
  · rw [if_pos ((any_fst_eq_iff _ _).mpr hv)]
    have hsome := (dlookup_isSome_iff_mem_keys b.edges v).mpr hv
    by_cases hxv : x = v
    · subst hxv
      cases hl : dlookup b.edges x with
      | none => rw [hl] at hsome; simp at hsome
      | some s => simp [hl]
    · simp [hxv]
  · rw [if_neg (fun hc => hv ((any_fst_eq_iff _ _).mp hc))]
    have hl : dlookup b.edges v = none := dlookup_eq_none_of_not_mem_keys hv
    show dlookup (b.edges ++ [(v, [])]) x = _
    rw [dlookup_append]
    by_cases hxv : x = v
    · subst hxv
      simp [hl, dlookup]
    · cases hx : dlookup b.edges x with
      | none =>
        simp only [hx, hxv]
        simp [dlookup]
        exact fun h => hxv h.symm
      | some s => simp [hxv]

theorem dlookup_map_append_pair (m : List (V × List (V × L))) (f t : V) (l : L)
    (y : V) :
    dlookup (m.map (fun p => if p.1 = f then (p.1, p.2 ++ [(t, l)]) else p)) y =
      if y = f then (dlookup m f).map (fun s => s ++ [(t, l)]) else dlookup m y :=
  dlookup_map_modify m f (fun s => s ++ [(t, l)]) y

theorem pend_edge_modify (b : Builder V L) (f t : V) (l : L) (y : V) :
    dlookup (if b.edges.any (fun p => p.1 = f) then
        b.edges.map (fun p =>
          if p.1 = f then (p.1, p.2 ++ [(t, l)]) else p)
      else b.edges ++ [(f, [(t, l)])]) y =
      if y = f then some ((dlookup b.edges f).getD [] ++ [(t, l)])
      else dlookup b.edges y := by
  by_cases hf : f ∈ keysOf b.edges
  · rw [if_pos ((any_fst_eq_iff _ _).mpr hf), dlookup_map_append_pair]
    have hsome := (dlookup_isSome_iff_mem_keys b.edges f).mpr hf
    by_cases hyf : y = f
    · subst hyf
      cases hl : dlookup b.edges y with
      | none => rw [hl] at hsome; simp at hsome
      | some s => simp [hl]
    · simp [hyf]
  · rw [if_neg (fun hc => hf ((any_fst_eq_iff _ _).mp hc)), dlookup_append]
    have hl : dlookup b.edges f = none := dlookup_eq_none_of_not_mem_keys hf
    by_cases hyf : y = f
    · subst hyf
      simp [hl, dlookup]
    · cases hx : dlookup b.edges y with
      | none =>
        simp only [hx, hyf]
        simp [dlookup]
        exact fun h => hyf h.symm
      | some s => simp [hyf]

theorem pend_add_edge_with_label (b : Builder V L) (f t : V) (l : L) (x : V) :
    dlookup (b.add_edge_with_label f t l).edges x =
      if x = t then
        some ((if t = f then some ((dlookup b.edges f).getD [] ++ [(t, l)])
               else dlookup b.edges t).getD [])
      else if x = f then some ((dlookup b.edges f).getD [] ++ [(t, l)])
      else dlookup b.edges x := by
  unfold add_edge_with_label
  rw [pend_add_vertex]
  simp only [pend_edge_modify]

/-- The pending list after `add_edge_with_labels` with a non-empty label
list: the from-vertex's list grows by one `(to, l)` pair per label, the
to-vertex is ensured as a key, everything else is untouched. -/
theorem pend_add_edge_with_labels (b : Builder V L) (f t : V) (l : L) (ls : List L)
    (x : V) :
    dlookup (b.add_edge_with_labels f t (l :: ls)).edges x =
      if x = f then
        some ((dlookup b.edges f).getD [] ++ (l :: ls).map (fun l => (t, l)))
      else if x = t then some ((dlookup b.edges t).getD [])
      else dlookup b.edges x := by
  induction ls generalizing b l with
  | nil =>
    show dlookup (b.add_edge_with_label f t l).edges x = _
    rw [pend_add_edge_with_label]
    by_cases hxf : x = f
    · subst hxf
      by_cases hxt : x = t
      · simp [← hxt]
      · simp [hxt, Ne.symm hxt]
    · by_cases hxt : x = t
      · subst hxt
        simp [hxf, fun h : x = f => hxf h]
      · simp [hxf, hxt]
  | cons l₂ ls ih =>
    show dlookup (((b.add_edge_with_label f t l).add_edge_with_labels f t
      (l₂ :: ls)).edges) x = _
    rw [ih]
    by_cases hxf : x = f
    · subst hxf
      rw [if_pos rfl, if_pos rfl, pend_add_edge_with_label]
      by_cases hxt : x = t
      · simp [← hxt]
      · simp [hxt, Ne.symm hxt]
    · rw [if_neg hxf, if_neg hxf]
      by_cases hxt : x = t
      · subst hxt
        rw [if_pos rfl, if_pos rfl, pend_add_edge_with_label]
        simp [hxf, fun h : x = f => hxf h]
      · rw [if_neg hxt, if_neg hxt, pend_add_edge_with_label]
        simp [hxf, hxt]

end BuilderLemmas

section CollectLemmas

open DirectedGraph DirectedGraph.Builder

variable {V L : Type} {α β : Type} [DecidableEq V] [DecidableEq L]

theorem dlookup_map_setInsert (m : List (V × LSet L)) (f : V) (lab : L) (y : V) :
    dlookup (m.map (fun p => if p.1 = f then (p.1, setInsert p.2 lab) else p)) y =
      if y = f then (dlookup m f).map (fun s => setInsert s lab) else dlookup m y :=
  dlookup_map_modify m f (fun s => setInsert s lab) y

theorem dlookup_collect_foldl (ds : List (V × L)) : ∀ (acc : List (V × LSet L)) (y : V),
    dlookup (ds.foldl (fun acc q =>
        if acc.any (fun p => p.1 = q.1) then
          acc.map (fun p => if p.1 = q.1 then (p.1, setInsert p.2 q.2) else p)
        else acc ++ [(q.1, [q.2])]) acc) y =
      if dlookup acc y = none ∧ (ds.filter (fun q => q.1 = y)) = [] then none
      else some (((ds.filter (fun q => q.1 = y)).map Prod.snd).foldl setInsert
        ((dlookup acc y).getD [])) := by
  induction ds with
  | nil =>
    intro acc y
    cases h : dlookup acc y with
    | none => simp [h]
    | some s => simp [h]
  | cons q ds ih =>
    intro acc y
    rw [List.foldl_cons]
    by_cases hmem : q.1 ∈ keysOf acc
    · rw [if_pos ((any_fst_eq_iff _ _).mpr hmem)]
      rw [ih]
      have hsome := (dlookup_isSome_iff_mem_keys acc q.1).mpr hmem
      rw [dlookup_map_setInsert]
      by_cases hqy : q.1 = y
      · subst hqy
        cases hl : dlookup acc q.1 with
        | none => rw [hl] at hsome; simp at hsome
        | some s => simp [hl, List.filter_cons]
      · have hyq : ¬y = q.1 := fun h => hqy h.symm
        rw [if_neg hyq]
        have hfilter : ((q :: ds).filter (fun r => r.1 = y)) =
            ds.filter (fun r => r.1 = y) := by
          rw [List.filter_cons, if_neg (by simp [hqy])]
        rw [hfilter]
    · rw [if_neg (fun hc => hmem ((any_fst_eq_iff _ _).mp hc))]
      have hl : dlookup acc q.1 = none := dlookup_eq_none_of_not_mem_keys hmem
      rw [ih]
      by_cases hqy : q.1 = y
      · subst hqy
        rw [dlookup_append, hl]
        simp [dlookup, List.filter_cons, setInsert]
      · have hyq : ¬y = q.1 := fun h => hqy h.symm
        have hone : dlookup [(q.1, [q.2])] y = none := by
          simp [dlookup, fun h : q.1 = y => hqy h]
        rw [dlookup_append, hone]
        have hfilter : ((q :: ds).filter (fun r => r.1 = y)) =
            ds.filter (fun r => r.1 = y) := by
          rw [List.filter_cons, if_neg (by simp [hqy])]
        rw [hfilter]
        cases hy : dlookup acc y with
        | none => rfl
        | some s => rfl

theorem dlookup_collect_destinations (ds : List (V × L)) (y : V) :
    dlookup (collect_destinations ds) y =
      if (ds.filter (fun q => q.1 = y)) = [] then none
      else some (setList ((ds.filter (fun q => q.1 = y)).map Prod.snd)) := by
  have h := dlookup_collect_foldl ds [] y
  by_cases hf : (ds.filter (fun q => q.1 = y)) = []
  · rw [if_pos hf]
    rw [if_pos ⟨rfl, hf⟩] at h
    exact h
  · rw [if_neg hf]
    rw [if_neg (fun hc => hf hc.2)] at h
    exact h

theorem keysOf_collect_foldl_nodup (ds : List (V × L)) :
    ∀ acc : List (V × LSet L), (keysOf acc).Nodup →
    (keysOf (ds.foldl (fun acc q =>
        if acc.any (fun p => p.1 = q.1) then
          acc.map (fun p => if p.1 = q.1 then (p.1, setInsert p.2 q.2) else p)
        else acc ++ [(q.1, [q.2])]) acc)).Nodup := by
  induction ds with
  | nil => intro acc h; exact h
  | cons q ds ih =>
    intro acc h
    rw [List.foldl_cons]
    by_cases hmem : q.1 ∈ keysOf acc
    · rw [if_pos ((any_fst_eq_iff _ _).mpr hmem)]
      exact ih _ (by rw [keysOf_map_modify acc q.1 (fun s => setInsert s q.2)]; exact h)
    · rw [if_neg (fun hc => hmem ((any_fst_eq_iff _ _).mp hc))]
      refine ih _ ?_
      simp [keysOf_append, List.nodup_append, h, hmem]

theorem keysOf_collect_destinations_nodup (ds : List (V × L)) :
    (keysOf (collect_destinations ds)).Nodup :=
  keysOf_collect_foldl_nodup ds [] (by simp [keysOf])

theorem dlookup_build_graph (b : Builder V L) (x : V) :
    dlookup (b.build_graph).adjacency_matrix x =
      (dlookup b.edges x).map collect_destinations :=
  dlookup_map_value b.edges collect_destinations x

theorem keysOf_build_graph (b : Builder V L) :
    keysOf (b.build_graph).adjacency_matrix = keysOf b.edges :=
  keysOf_map_value b.edges collect_destinations

theorem filter_key_eq_nil {m : List (V × α)} {x : V} (h : x ∉ keysOf m) :
    m.filter (fun q => q.1 = x) = [] := by
  rw [List.filter_eq_nil_iff]
  intro p hp
  simp only [decide_eq_true_eq]
  intro he
  exact h (he ▸ (by simpa [keysOf] using List.mem_map_of_mem Prod.fst hp))

theorem filter_key_single {m : List (V × α)} (hnd : (keysOf m).Nodup) (x : V) :
    m.filter (fun q => q.1 = x) =
      match dlookup m x with
      | some v => [(x, v)]
      | none => [] := by
  induction m with
  | nil => simp
  | cons p r ih =>
    simp only [keysOf_cons, List.nodup_cons] at hnd
    by_cases hpx : p.1 = x
    · have hrest : r.filter (fun q => q.1 = x) = [] :=
        filter_key_eq_nil (hpx ▸ hnd.1)
      have hp : p = (x, p.2) := by
        cases p
        simp_all
      rw [List.filter_cons]
      simp [hpx, hrest, dlookup, ← hp]
    · rw [List.filter_cons, if_neg (by simp [hpx]), ih hnd.2, dlookup_cons,
        if_neg hpx]

theorem flatMap_key_eq_nil {m : List (V × α)} {x : V} (h : x ∉ keysOf m)
    (F : V × α → List β) :
    (m.flatMap (fun p => if p.1 = x then F p else [])) = [] := by
  induction m with
  | nil => simp
  | cons p r ih =>
    simp only [keysOf_cons, List.mem_cons, not_or] at h
    rw [List.flatMap_cons]
    rw [if_neg (fun he : p.1 = x => h.1 he.symm), ih (by simpa [keysOf] using h.2)]
    simp

theorem flatMap_key_single {m : List (V × α)} (hnd : (keysOf m).Nodup)
    (F : V × α → List β) (x : V) :
    (m.flatMap (fun p => if p.1 = x then F p else [])) =
      match dlookup m x with
      | some v => F (x, v)
      | none => [] := by
  induction m with
  | nil => simp
  | cons p r ih =>
    simp only [keysOf_cons, List.nodup_cons] at hnd
    rw [List.flatMap_cons]
    by_cases hpx : p.1 = x
    · have hp : p = (x, p.2) := by
        cases p
        simp_all
      rw [if_pos hpx, flatMap_key_eq_nil (hpx ▸ hnd.1) F]
      simp [dlookup, hpx, ← hp]
    · rw [if_neg hpx, ih hnd.2]
      simp [dlookup, hpx]

end CollectLemmas

section RevLemmas

open DirectedGraph DirectedGraph.Builder

variable {V L : Type} [DecidableEq V] [DecidableEq L]

theorem keys_nodup_add_vertex (b : Builder V L) (v : V)
    (h : (keysOf b.edges).Nodup) : (keysOf (b.add_vertex v).edges).Nodup := by
  unfold add_vertex
  by_cases hv : v ∈ keysOf b.edges
  · rw [if_pos ((any_fst_eq_iff _ _).mpr hv)]
    exact h
  · rw [if_neg (fun hc => hv ((any_fst_eq_iff _ _).mp hc))]
    show (keysOf (b.edges ++ [(v, [])])).Nodup
    rw [show keysOf (b.edges ++ [(v, [])]) = keysOf b.edges ++ [v] from by simp [keysOf],
      List.nodup_append]
    refine ⟨h, List.nodup_singleton v, ?_⟩
    intro a ha hb
    rw [List.mem_singleton] at hb
    exact hv (hb ▸ ha)

theorem keys_nodup_add_edge_with_label (b : Builder V L) (f t : V) (l : L)
    (h : (keysOf b.edges).Nodup) :
    (keysOf (b.add_edge_with_label f t l).edges).Nodup := by
  simp only [add_edge_with_label]
  apply keys_nodup_add_vertex
  by_cases hf : f ∈ keysOf b.edges
  · rw [if_pos ((any_fst_eq_iff _ _).mpr hf)]
    show (keysOf (b.edges.map (fun p =>
      if p.1 = f then (p.1, p.2 ++ [(t, l)]) else p))).Nodup
    rw [keysOf_map_modify b.edges f (fun s => s ++ [(t, l)])]
    exact h
  · rw [if_neg (fun hc => hf ((any_fst_eq_iff _ _).mp hc))]
    show (keysOf (b.edges ++ [(f, [(t, l)])])).Nodup
    rw [show keysOf (b.edges ++ [(f, [(t, l)])]) = keysOf b.edges ++ [f] from by
      simp [keysOf], List.nodup_append]
    refine ⟨h, List.nodup_singleton f, ?_⟩
    intro a ha hb
    rw [List.mem_singleton] at hb
    exact hf (hb ▸ ha)

theorem keys_nodup_add_edge_with_labels (b : Builder V L) (f t : V) (ls : LSet L)
    (h : (keysOf b.edges).Nodup) :
    (keysOf (b.add_edge_with_labels f t ls).edges).Nodup := by
  induction ls generalizing b with
  | nil => exact h
  | cons l ls ih =>
    exact ih (b.add_edge_with_label f t l) (keys_nodup_add_edge_with_label b f t l h)

/-- The getD of a pending list is unchanged by `add_vertex`. -/
theorem pend_getD_add_vertex (b : Builder V L) (v x : V) :
    (dlookup (b.add_vertex v).edges x).getD [] = (dlookup b.edges x).getD [] := by
  rw [pend_add_vertex]
  by_cases hxv : x = v
  · subst hxv
    cases h : dlookup b.edges x <;> simp [h]
  · rw [if_neg hxv]

/-- The inner fold of `reversed_graph` for one source entry: all its
destinations point their pending edges at the fixed target `f`. -/
theorem pend_rev_dests (f : V) : ∀ (dests : List (V × LSet L)),
    (∀ q ∈ dests, q.2 ≠ []) →
    ∀ (b : Builder V L), (dlookup b.edges f).isSome →
    ∀ x,
      dlookup ((dests.foldl (fun b q => b.add_edge_with_labels q.1 f q.2) b)).edges x =
        if (dlookup b.edges x).isSome ∨ x ∈ keysOf dests then
          some ((dlookup b.edges x).getD [] ++
            (dests.filter (fun q => q.1 = x)).flatMap
              (fun q => q.2.map (fun l => (f, l))))
        else none := by
  intro dests
  induction dests with
  | nil =>
    intro _ b _ x
    cases hx : dlookup b.edges x with
    | none => simp [hx]
    | some s => simp [hx]
  | cons q rest ih =>
    intro hls b hf x
    rw [List.foldl_cons]
    obtain ⟨l, ls', hq2⟩ : ∃ l ls', q.2 = l :: ls' := by
      cases hq : q.2 with
      | nil => exact absurd hq (hls q (by simp))
      | cons a as => exact ⟨a, as, rfl⟩
    have hpend : ∀ y, dlookup (b.add_edge_with_labels q.1 f q.2).edges y =
        if y = q.1 then
          some ((dlookup b.edges q.1).getD [] ++ q.2.map (fun l => (f, l)))
        else if y = f then some ((dlookup b.edges f).getD [])
        else dlookup b.edges y := by
      intro y
      rw [hq2]
      exact pend_add_edge_with_labels b q.1 f l ls' y
    have hf' : (dlookup (b.add_edge_with_labels q.1 f q.2).edges f).isSome := by
      rw [hpend f]
      by_cases hfq : f = q.1 <;> simp [hfq]
    rw [ih (fun q hq => hls q (by simp [hq])) _ hf' x]
    by_cases hxq : x = q.1
    · have hsome₁ : (dlookup (b.add_edge_with_labels q.1 f q.2).edges x).isSome := by
        rw [hpend x, if_pos hxq]
        simp
      rw [if_pos (Or.inl hsome₁), if_pos (Or.inr (by simp [keysOf, hxq]))]
      rw [hpend x, if_pos hxq]
      rw [List.filter_cons, if_pos (by simp [hxq]), List.flatMap_cons]
      simp [hxq, List.append_assoc]
    · have hfilter : ((q :: rest).filter (fun r => r.1 = x)) =
          rest.filter (fun r => r.1 = x) := by
        rw [List.filter_cons,
          if_neg (by simp only [decide_eq_true_eq]; exact fun h => hxq h.symm)]
      have hkeys : (x ∈ keysOf (q :: rest)) = (x ∈ keysOf rest) := by
        simp only [keysOf_cons, List.mem_cons]
        rw [eq_iff_iff]
        constructor
        · rintro (h | h)
          · exact absurd h hxq
          · exact h
        · exact Or.inr
      by_cases hxf : x = f
      · subst hxf
        rw [hpend x, if_neg hxq, if_pos rfl]
        cases hfx : dlookup b.edges x with
        | none => rw [hfx] at hf; simp at hf
        | some s =>
          rw [if_pos (Or.inl (by simp)), if_pos (Or.inl (by simp [hfx]))]
          rw [hfilter]
          simp [hfx]
      · rw [hpend x, if_neg hxq, if_neg hxf, hfilter]
        exact if_congr (by rw [hkeys]) rfl rfl

/-- The full fold of `reversed_graph` over all adjacency entries. -/
theorem pend_rev_entries : ∀ (entries : List (V × List (V × LSet L))),
    (∀ p ∈ entries, ∀ q ∈ p.2, q.2 ≠ []) →
    ∀ (b : Builder V L) (x : V),
      dlookup ((entries.foldl (fun b p =>
          p.2.foldl (fun b q => b.add_edge_with_labels q.1 p.1 q.2) (b.add_vertex p.1))
        b)).edges x =
        if (dlookup b.edges x).isSome ∨ x ∈ keysOf entries ∨
            x ∈ entries.flatMap (fun p => keysOf p.2) then
          some ((dlookup b.edges x).getD [] ++
            entries.flatMap (fun p =>
              (p.2.filter (fun q => q.1 = x)).flatMap
                (fun q => q.2.map (fun l => (p.1, l)))))
        else none := by
  intro entries
  induction entries with
  | nil =>
    intro _ b x
    cases hx : dlookup b.edges x with
    | none => simp [hx]
    | some s => simp [hx]
  | cons p rest ih =>
    intro hls b x
    simp only [List.foldl_cons]
    set b₁ : Builder V L := b.add_vertex p.1 with hb₁
    set b₂ : Builder V L :=
      p.2.foldl (fun b q => b.add_edge_with_labels q.1 p.1 q.2) b₁ with hb₂
    have hf₁ : (dlookup b₁.edges p.1).isSome := by
      rw [hb₁, pend_add_vertex]
      simp
    have hpend₂ : ∀ y, dlookup b₂.edges y =
        if (dlookup b₁.edges y).isSome ∨ y ∈ keysOf p.2 then
          some ((dlookup b₁.edges y).getD [] ++
            (p.2.filter (fun q => q.1 = y)).flatMap
              (fun q => q.2.map (fun l => (p.1, l))))
        else none :=
      fun y => pend_rev_dests p.1 p.2 (fun q hq => hls p (by simp) q hq) b₁ hf₁ y
    rw [ih (fun p' hp' q hq => hls p' (by simp [hp']) q hq) b₂ x]
    have hA : (dlookup b₂.edges x).isSome = true ↔
        ((dlookup b.edges x).isSome = true ∨ x = p.1 ∨ x ∈ keysOf p.2) := by
      rw [hpend₂ x]
      by_cases h1 : (dlookup b₁.edges x).isSome = true ∨ x ∈ keysOf p.2
      · rw [if_pos h1]
        simp only [Option.isSome_some, true_iff]
        rcases h1 with h1 | h1
        · rw [hb₁, pend_add_vertex] at h1
          by_cases hxp : x = p.1
          · exact Or.inr (Or.inl hxp)
          · rw [if_neg hxp] at h1
            exact Or.inl h1
        · exact Or.inr (Or.inr h1)
      · rw [if_neg h1]
        simp only [Option.isSome_none, Bool.false_eq_true, false_iff]
        intro h
        apply h1
        rcases h with h | h | h
        · left
          rw [hb₁, pend_add_vertex]
          by_cases hxp : x = p.1
          · rw [if_pos hxp]
            simp
          · rw [if_neg hxp]
            exact h
        · left
          rw [hb₁, pend_add_vertex, if_pos h]
          simp
        · right
          exact h
    have hgetD : (dlookup b₂.edges x).getD [] =
        (dlookup b.edges x).getD [] ++
          (p.2.filter (fun q => q.1 = x)).flatMap
            (fun q => q.2.map (fun l => (p.1, l))) := by
      rw [hpend₂ x]
      by_cases h1 : (dlookup b₁.edges x).isSome = true ∨ x ∈ keysOf p.2
      · rw [if_pos h1]
        simp only [Option.getD_some]
        rw [hb₁, pend_getD_add_vertex]
      · rw [if_neg h1]
        push_neg at h1
        have hxb : dlookup b.edges x = none := by
          have h2 := h1.1
          rw [hb₁, pend_add_vertex] at h2
          by_cases hxp : x = p.1
          · rw [if_pos hxp] at h2
            simp at h2
          · rw [if_neg hxp] at h2
            exact Option.not_isSome_iff_eq_none.mp (by simpa using h2)
        rw [hxb, filter_key_eq_nil h1.2]
        simp
    have hcond : ((dlookup b₂.edges x).isSome = true ∨ x ∈ keysOf rest ∨
        x ∈ rest.flatMap (fun p => keysOf p.2)) ↔
        ((dlookup b.edges x).isSome = true ∨ x ∈ keysOf (p :: rest) ∨
          x ∈ (p :: rest).flatMap (fun p => keysOf p.2)) := by
      rw [hA]
      simp only [keysOf_cons, List.flatMap_cons, List.mem_cons, List.mem_append]
      tauto
    by_cases hc : (dlookup b.edges x).isSome = true ∨ x ∈ keysOf (p :: rest) ∨
        x ∈ (p :: rest).flatMap (fun p => keysOf p.2)
    · rw [if_pos (hcond.mpr hc), if_pos hc, hgetD, List.flatMap_cons,
        List.append_assoc]
    · rw [if_neg (fun h => hc (hcond.mp h)), if_neg hc]

end RevLemmas

section ReversedGraphLemmas

open DirectedGraph DirectedGraph.Builder

variable {V L : Type} [DecidableEq V] [DecidableEq L]

/-- The adjacency entry of `x` in the reversed graph: present iff `x` occurs
as a key or as a destination, holding all `(origin, label)` pairs whose edge
points at `x`, collected into a destination dict. -/
theorem dlookup_reversed_graph (g : DirectedGraph V L)
    (hls : ∀ p ∈ g.adjacency_matrix, ∀ q ∈ p.2, q.2 ≠ []) (x : V) :
    dlookup (g.reversed_graph).adjacency_matrix x =
      if x ∈ keysOf g.adjacency_matrix ∨
          x ∈ g.adjacency_matrix.flatMap (fun p => keysOf p.2) then
        some (collect_destinations (g.adjacency_matrix.flatMap (fun p =>
          (p.2.filter (fun q => q.1 = x)).flatMap
            (fun q => q.2.map (fun l => (p.1, l))))))
      else none := by
  unfold reversed_graph
  rw [dlookup_build_graph]
  rw [pend_rev_entries g.adjacency_matrix hls ⟨[]⟩ x]
  by_cases hc : x ∈ keysOf g.adjacency_matrix ∨
      x ∈ g.adjacency_matrix.flatMap (fun p => keysOf p.2)
  · rw [if_pos (Or.inr hc), if_pos hc]
    simp
  · rw [if_neg ?_, if_neg hc]
    · rfl
    · intro h
      rcases h with h | h
      · simp at h
      · exact hc h

theorem mem_keys_reversed_graph {g : DirectedGraph V L} (hWF : g.WF) (x : V) :
    x ∈ keysOf g.reversed_graph.adjacency_matrix ↔
      x ∈ keysOf g.adjacency_matrix := by
  rw [← dlookup_isSome_iff_mem_keys,
    dlookup_reversed_graph g (fun p hp q hq => ((hWF.2 p hp).2 q hq).1) x]
  constructor
  · intro h
    by_cases hc : x ∈ keysOf g.adjacency_matrix ∨
        x ∈ g.adjacency_matrix.flatMap (fun p => keysOf p.2)
    · rcases hc with hc | hc
      · exact hc
      · obtain ⟨p, hp, hx⟩ := List.mem_flatMap.mp hc
        obtain ⟨q, hq, rfl⟩ := by
          simpa only [keysOf, List.mem_map] using hx
        exact ((hWF.2 p hp).2 q hq).2.2
    · rw [if_neg hc] at h
      simp at h
  · intro h
    rw [if_pos (Or.inl h)]
    simp

theorem filter_revContrib (adj : List (V × List (V × LSet L))) (x y : V) :
    ((adj.flatMap (fun p => (p.2.filter (fun q => q.1 = x)).flatMap
        (fun q => q.2.map (fun l => (p.1, l))))).filter (fun r => r.1 = y)) =
      adj.flatMap (fun p => if p.1 = y then
        (p.2.filter (fun q => q.1 = x)).flatMap
          (fun q => q.2.map (fun l => (p.1, l)))
      else []) := by
  induction adj with
  | nil => simp
  | cons p rest ih =>
    rw [List.flatMap_cons, List.filter_append, ih, List.flatMap_cons]
    congr 1
    by_cases hpy : p.1 = y
    · rw [if_pos hpy]
      apply List.filter_eq_self.mpr
      intro r hr
      obtain ⟨q, _hq, hr2⟩ := List.mem_flatMap.mp hr
      obtain ⟨l, _hl, rfl⟩ := List.mem_map.mp hr2
      simp [hpy]
    · rw [if_neg hpy]
      apply List.filter_eq_nil_iff.mpr
      intro r hr
      obtain ⟨q, _hq, hr2⟩ := List.mem_flatMap.mp hr
      obtain ⟨l, _hl, rfl⟩ := List.mem_map.mp hr2
      simp [hpy]

/-- Reversal swaps every edge: the labels of `x -> y` in the reversed graph
are exactly the labels of `y -> x` in the original (on well-formed graphs,
literally the same list). -/
theorem edgeLabels_reversed_graph {g : DirectedGraph V L} (hWF : g.WF) (x y : V) :
    edgeLabels g.reversed_graph x y = edgeLabels g y x := by
  unfold edgeLabels
  rw [dlookup_reversed_graph g (fun p hp q hq => ((hWF.2 p hp).2 q hq).1) x]
  by_cases hc : x ∈ keysOf g.adjacency_matrix ∨
      x ∈ g.adjacency_matrix.flatMap (fun p => keysOf p.2)
  · rw [if_pos hc]
    show dlookup (collect_destinations _) y = _
    rw [dlookup_collect_destinations, filter_revContrib,
      flatMap_key_single hWF.1 _ y]
    cases hdy : dlookup g.adjacency_matrix y with
    | none => simp
    | some ds =>
      have hmem_y : (y, ds) ∈ g.adjacency_matrix := mem_of_dlookup_eq_some hdy
      have hWFy := hWF.2 (y, ds) hmem_y
      show (if ((ds.filter (fun q => q.1 = x)).flatMap
          (fun q => q.2.map (fun l => (y, l)))) = [] then none
        else some (setList (((ds.filter (fun q => q.1 = x)).flatMap
          (fun q => q.2.map (fun l => (y, l)))).map Prod.snd))) = dlookup ds x
      rw [filter_key_single hWFy.1 x]
      cases hdx : dlookup ds x with
      | none => simp
      | some s =>
        have hmem_x : (x, s) ∈ ds := mem_of_dlookup_eq_some hdx
        have hs := hWFy.2 (x, s) hmem_x
        have hmap : (([(x, s)] : List (V × LSet L)).flatMap
            (fun q => q.2.map (fun l => (y, l)))) = s.map (fun l => (y, l)) := by
          simp
        rw [hmap]
        rw [if_neg (by simpa using hs.1)]
        congr 1
        rw [List.map_map]
        have : (Prod.snd ∘ fun l => ((y, l) : V × L)) = id := rfl
        rw [this, List.map_id]
        exact setList_eq_self hs.2.1
  · rw [if_neg hc]
    cases hdy : dlookup g.adjacency_matrix y with
    | none => rfl
    | some ds =>
      cases hdx : dlookup ds x with
      | none =>
        show (none : Option (LSet L)) = dlookup ds x
        exact hdx.symm
      | some s =>
        exfalso
        apply hc
        right
        refine List.mem_flatMap.mpr ⟨(y, ds), mem_of_dlookup_eq_some hdy, ?_⟩
        exact mem_keys_of_dlookup_isSome (by simp [hdx])

end ReversedGraphLemmas

section ReversedWF

open DirectedGraph DirectedGraph.Builder

variable {V L : Type} [DecidableEq V] [DecidableEq L]

theorem keys_nodup_rev_dests_fold (f : V) (dests : List (V × LSet L)) :
    ∀ b : Builder V L, (keysOf b.edges).Nodup →
    (keysOf ((dests.foldl (fun b q => b.add_edge_with_labels q.1 f q.2) b)).edges).Nodup := by
  induction dests with
  | nil => intro b h; exact h
  | cons q rest ih =>
    intro b h
    exact ih _ (keys_nodup_add_edge_with_labels b q.1 f q.2 h)

theorem keys_nodup_reversed_graph (g : DirectedGraph V L) :
    (keysOf g.reversed_graph.adjacency_matrix).Nodup := by
  unfold reversed_graph
  rw [keysOf_build_graph]
  suffices h : ∀ (entries : List (V × List (V × LSet L))) (b : Builder V L),
      (keysOf b.edges).Nodup →
      (keysOf ((entries.foldl (fun b p =>
        p.2.foldl (fun b q => b.add_edge_with_labels q.1 p.1 q.2) (b.add_vertex p.1))
        b)).edges).Nodup by
    exact h g.adjacency_matrix ⟨[]⟩ (by simp [keysOf])
  intro entries
  induction entries with
  | nil => intro b h; exact h
  | cons p rest ih =>
    intro b h
    exact ih _ (keys_nodup_rev_dests_fold p.1 p.2 _ (keys_nodup_add_vertex b p.1 h))

theorem WF_reversed_graph {g : DirectedGraph V L} (hWF : g.WF) :
    g.reversed_graph.WF := by
  have hls : ∀ p ∈ g.adjacency_matrix, ∀ q ∈ p.2, q.2 ≠ [] :=
    fun p hp q hq => ((hWF.2 p hp).2 q hq).1
  have hnd := keys_nodup_reversed_graph (g := g)
  refine ⟨hnd, ?_⟩
  intro p hp
  have hp' : (p.1, p.2) ∈ g.reversed_graph.adjacency_matrix := by
    cases p
    exact hp
  have hlp : dlookup g.reversed_graph.adjacency_matrix p.1 = some p.2 :=
    dlookup_of_mem_of_nodup hp' hnd
  have hchar := dlookup_reversed_graph g hls p.1
  rw [hlp] at hchar
  by_cases hc : p.1 ∈ keysOf g.adjacency_matrix ∨
      p.1 ∈ g.adjacency_matrix.flatMap (fun p => keysOf p.2)
  case neg =>
    rw [if_neg hc] at hchar
    cases hchar
  rw [if_pos hc] at hchar
  have hp2 := Option.some.inj hchar
  have hndinner : (keysOf p.2).Nodup := by
    rw [hp2]
    exact keysOf_collect_destinations_nodup _
  refine ⟨hndinner, ?_⟩
  intro q hq
  have hq' : (q.1, q.2) ∈ p.2 := by
    cases q
    exact hq
  have hlq : dlookup p.2 q.1 = some q.2 := dlookup_of_mem_of_nodup hq' hndinner
  have hedge : edgeLabels g.reversed_graph p.1 q.1 = some q.2 := by
    unfold edgeLabels
    rw [hlp]
    exact hlq
  rw [edgeLabels_reversed_graph hWF] at hedge
  unfold edgeLabels at hedge
  cases hdy : dlookup g.adjacency_matrix q.1 with
  | none =>
    rw [hdy] at hedge
    exact absurd (show (none : Option (LSet L)) = some q.2 from hedge) (by simp)
  | some ds =>
    rw [hdy] at hedge
    have hds : dlookup ds p.1 = some q.2 := hedge
    have hmm : (p.1, q.2) ∈ ds := mem_of_dlookup_eq_some hds
    have hWFy := hWF.2 (q.1, ds) (mem_of_dlookup_eq_some hdy)
    refine ⟨(hWFy.2 (p.1, q.2) hmm).1, (hWFy.2 (p.1, q.2) hmm).2.1, ?_⟩
    rw [mem_keys_reversed_graph hWF]
    exact mem_keys_of_dlookup_isSome (by simp [hdy])

/-- One direction of `__eq__`: every entry of `g₁` matches in `g₂`, given
agreeing lookups. -/
theorem pyEq_side {g₁ g₂ : DirectedGraph V L}
    (hnd₁ : (keysOf g₁.adjacency_matrix).Nodup)
    (hinner₁ : ∀ p ∈ g₁.adjacency_matrix, (keysOf p.2).Nodup)
    (hinner₂ : ∀ p ∈ g₂.adjacency_matrix, (keysOf p.2).Nodup)
    (hnd₂ : (keysOf g₂.adjacency_matrix).Nodup)
    (hkeys : ∀ x, x ∈ keysOf g₁.adjacency_matrix → x ∈ keysOf g₂.adjacency_matrix)
    (hlab : ∀ x y, edgeLabels g₁ x y = edgeLabels g₂ x y) :
    (g₁.adjacency_matrix.all (fun p =>
      match dlookup g₂.adjacency_matrix p.1 with
      | some d => destsBeq p.2 d
      | none => false)) = true := by
  rw [List.all_eq_true]
  intro p hp
  have h1 : p.1 ∈ keysOf g₂.adjacency_matrix :=
    hkeys p.1 (by simpa [keysOf] using List.mem_map_of_mem Prod.fst hp)
  obtain ⟨d, hd⟩ := Option.isSome_iff_exists.mp
    ((dlookup_isSome_iff_mem_keys _ _).mpr h1)
  have hcc : ∀ y, dlookup p.2 y = dlookup d y := by
    intro y
    have e1 : edgeLabels g₁ p.1 y = dlookup p.2 y := by
      unfold edgeLabels
      rw [dlookup_of_mem_of_nodup (show (p.1, p.2) ∈ g₁.adjacency_matrix from by
        cases p; exact hp) hnd₁]
    have e2 : edgeLabels g₂ p.1 y = dlookup d y := by
      unfold edgeLabels
      rw [hd]
    rw [← e1, ← e2, hlab]
  rw [hd]
  show destsBeq p.2 d = true
  unfold destsBeq
  rw [Bool.and_eq_true, List.all_eq_true, List.all_eq_true]
  constructor
  · intro q hq
    have hlq : dlookup d q.1 = some q.2 := by
      rw [← hcc q.1]
      exact dlookup_of_mem_of_nodup (show (q.1, q.2) ∈ p.2 from by
        cases q; exact hq) (hinner₁ p hp)
    rw [hlq]
    exact lsBeq_refl q.2
  · intro q hq
    have hlq : dlookup p.2 q.1 = some q.2 := by
      rw [hcc q.1]
      exact dlookup_of_mem_of_nodup (show (q.1, q.2) ∈ d from by
        cases q; exact hq) (hinner₂ (p.1, d) (mem_of_dlookup_eq_some hd))
    rw [hlq]
    exact lsBeq_refl q.2

/-- `__eq__` holds between graphs with duplicate-free keys whose vertex sets
and edge-label lookups agree. -/
theorem pyEq_of_lookup {g₁ g₂ : DirectedGraph V L}
    (hWF₁ : (keysOf g₁.adjacency_matrix).Nodup ∧
      ∀ p ∈ g₁.adjacency_matrix, (keysOf p.2).Nodup)
    (hWF₂ : (keysOf g₂.adjacency_matrix).Nodup ∧
      ∀ p ∈ g₂.adjacency_matrix, (keysOf p.2).Nodup)
    (hkeys : ∀ x, x ∈ keysOf g₁.adjacency_matrix ↔ x ∈ keysOf g₂.adjacency_matrix)
    (hlab : ∀ x y, edgeLabels g₁ x y = edgeLabels g₂ x y) :
    g₁.pyEq g₂ = true := by
  unfold pyEq
  rw [Bool.and_eq_true]
  exact ⟨pyEq_side hWF₁.1 hWF₁.2 hWF₂.2 hWF₂.1 (fun x => (hkeys x).mp) hlab,
    pyEq_side hWF₂.1 hWF₂.2 hWF₁.2 hWF₁.1 (fun x => (hkeys x).mpr)
      (fun x y => (hlab x y).symm)⟩

end ReversedWF

/-! ## Claim theorems: reversal involution (C4) -/

section ClaimsReversed

open DirectedGraph

/-- C4: for every well-formed `DirectedGraph` (the dict/closure invariants
every `build_graph` output satisfies), reversing twice gives a graph that is
structurally equal (`__eq__`) to the original: same vertex set including
isolated vertices, every edge back in its original direction with its label
set unchanged. -/
theorem c4_reversed_reversed_pyEq {V L : Type} [DecidableEq V] [DecidableEq L]
    (g : DirectedGraph V L) (hWF : g.WF) :
    (g.reversed_graph.reversed_graph).pyEq g = true := by
  have hWFr := WF_reversed_graph hWF
  have hWFrr := WF_reversed_graph hWFr
  apply pyEq_of_lookup
  · exact ⟨hWFrr.1, fun p hp => (hWFrr.2 p hp).1⟩
  · exact ⟨hWF.1, fun p hp => (hWF.2 p hp).1⟩
  · intro x
    rw [mem_keys_reversed_graph hWFr, mem_keys_reversed_graph hWF]
  · intro x y
    rw [edgeLabels_reversed_graph hWFr, edgeLabels_reversed_graph hWF]

/-- Witness for C4: the 4-cycle graph. -/
theorem c4_reversed_reversed_pyEq_witness :
    (cycleGraph.reversed_graph.reversed_graph).pyEq cycleGraph = true :=
  c4_reversed_reversed_pyEq cycleGraph (by decide)

end ClaimsReversed

section SubgraphLemmas

open DirectedGraph DirectedGraph.Builder

variable {V L : Type} [DecidableEq V] [DecidableEq L]

/-- The inner fold of `subgraph` for one kept source vertex `f`: each kept
destination appends its labelled pairs to `f`'s pending list and is ensured
as a key; dropped destinations change nothing. -/
theorem pend_sub_dests (f : V) (keep : Finset V) : ∀ (dests : List (V × LSet L)),
    (∀ q ∈ dests, q.2 ≠ []) →
    ∀ (b : Builder V L), (dlookup b.edges f).isSome →
    ∀ x,
      dlookup ((dests.foldl (fun b q =>
          if q.1 ∈ keep then b.add_edge_with_labels f q.1 q.2 else b) b)).edges x =
        if x = f then
          some ((dlookup b.edges f).getD [] ++
            (dests.filter (fun q => decide (q.1 ∈ keep))).flatMap
              (fun q => q.2.map (fun l => (q.1, l))))
        else if (dlookup b.edges x).isSome ∨
            x ∈ keysOf (dests.filter (fun q => decide (q.1 ∈ keep))) then
          some ((dlookup b.edges x).getD [])
        else none := by
  intro dests
  induction dests with
  | nil =>
    intro _ b hf x
    by_cases hxf : x = f
    · subst hxf
      obtain ⟨s, hs⟩ := Option.isSome_iff_exists.mp hf
      rw [if_pos rfl, hs]
      simp [hs]
    · rw [if_neg hxf]
      cases hx : dlookup b.edges x with
      | none => simp [hx]
      | some s => simp [hx]
  | cons q rest ih =>
    intro hls b hf x
    rw [List.foldl_cons]
    by_cases hkeep : q.1 ∈ keep
    · rw [if_pos hkeep]
      obtain ⟨l, ls', hq2⟩ : ∃ l ls', q.2 = l :: ls' := by
        cases hq : q.2 with
        | nil => exact absurd hq (hls q (by simp))
        | cons a as => exact ⟨a, as, rfl⟩
      have hpend : ∀ y, dlookup (b.add_edge_with_labels f q.1 q.2).edges y =
          if y = f then
            some ((dlookup b.edges f).getD [] ++ q.2.map (fun l => (q.1, l)))
          else if y = q.1 then some ((dlookup b.edges q.1).getD [])
          else dlookup b.edges y := by
        intro y
        rw [hq2]
        exact pend_add_edge_with_labels b f q.1 l ls' y
      have hf' : (dlookup (b.add_edge_with_labels f q.1 q.2).edges f).isSome := by
        rw [hpend f, if_pos rfl]
        simp
      rw [ih (fun q hq => hls q (by simp [hq])) _ hf' x]
      have hfiltercons : ((q :: rest).filter (fun r => decide (r.1 ∈ keep))) =
          q :: rest.filter (fun r => decide (r.1 ∈ keep)) := by
        rw [List.filter_cons, if_pos (by simp [hkeep])]
      by_cases hxf : x = f
      · subst hxf
        rw [if_pos rfl, if_pos rfl, hpend x, if_pos rfl]
        rw [hfiltercons, List.flatMap_cons]
        simp [List.append_assoc]
      · rw [if_neg hxf, if_neg hxf]
        by_cases hxq : x = q.1
        · have hsome : (dlookup (b.add_edge_with_labels f q.1 q.2).edges x).isSome := by
            rw [hpend x, if_neg hxf, if_pos hxq]
            simp
          rw [if_pos (Or.inl hsome), if_pos (Or.inr (by
            rw [hfiltercons]
            simp [keysOf, hxq]))]
          rw [hpend x, if_neg hxf, if_pos hxq, hxq]
          simp
        · rw [hpend x, if_neg hxf, if_neg hxq]
          have hkeys : (x ∈ keysOf ((q :: rest).filter (fun r => decide (r.1 ∈ keep)))) =
              (x ∈ keysOf (rest.filter (fun r => decide (r.1 ∈ keep)))) := by
            rw [hfiltercons, eq_iff_iff]
            simp only [keysOf_cons, List.mem_cons]
            constructor
            · rintro (h | h)
              · exact absurd h hxq
              · exact h
            · exact Or.inr
          exact if_congr (by rw [hkeys]) rfl rfl
    · rw [if_neg hkeep]
      rw [ih (fun q hq => hls q (by simp [hq])) b hf x]
      have hfiltercons : ((q :: rest).filter (fun r => decide (r.1 ∈ keep))) =
          rest.filter (fun r => decide (r.1 ∈ keep)) := by
        rw [List.filter_cons, if_neg (by simp [hkeep])]
      rw [hfiltercons]

end SubgraphLemmas

section SubgraphOuter

open DirectedGraph DirectedGraph.Builder

variable {V L : Type} [DecidableEq V] [DecidableEq L]

/-- The full fold of `subgraph` over all adjacency entries: `x` becomes a
pending key iff it is a kept source vertex or a kept destination of a kept
source; only `x`'s own kept entry contributes pending edge pairs. -/
theorem pend_sub_entries (keep : Finset V) : ∀ (entries : List (V × List (V × LSet L))),
    (∀ p ∈ entries, ∀ q ∈ p.2, q.2 ≠ []) →
    ∀ (b : Builder V L) (x : V),
      dlookup ((entries.foldl (fun b p =>
          if p.1 ∈ keep then
            p.2.foldl (fun b q =>
              if q.1 ∈ keep then b.add_edge_with_labels p.1 q.1 q.2 else b)
              (b.add_vertex p.1)
          else b) b)).edges x =
        if (dlookup b.edges x).isSome ∨ (x ∈ keysOf entries ∧ x ∈ keep) ∨
            (∃ p ∈ entries, p.1 ∈ keep ∧
              x ∈ keysOf (p.2.filter (fun q => decide (q.1 ∈ keep)))) then
          some ((dlookup b.edges x).getD [] ++
            entries.flatMap (fun p =>
              if p.1 = x ∧ p.1 ∈ keep then
                (p.2.filter (fun q => decide (q.1 ∈ keep))).flatMap
                  (fun q => q.2.map (fun l => (q.1, l)))
              else []))
        else none := by
  intro entries
  induction entries with
  | nil =>
    intro _ b x
    cases hx : dlookup b.edges x with
    | none => simp [hx]
    | some s => simp [hx]
  | cons p rest ih =>
    intro hls b x
    simp only [List.foldl_cons]
    by_cases hpk : p.1 ∈ keep
    · rw [if_pos hpk]
      set b₁ : Builder V L := b.add_vertex p.1 with hb₁
      set b₂ : Builder V L :=
        p.2.foldl (fun b q =>
          if q.1 ∈ keep then b.add_edge_with_labels p.1 q.1 q.2 else b) b₁ with hb₂
      have hf₁ : (dlookup b₁.edges p.1).isSome := by
        rw [hb₁, pend_add_vertex]
        simp
      have hpend₂ : ∀ y, dlookup b₂.edges y =
          if y = p.1 then
            some ((dlookup b₁.edges p.1).getD [] ++
              (p.2.filter (fun q => decide (q.1 ∈ keep))).flatMap
                (fun q => q.2.map (fun l => (q.1, l))))
          else if (dlookup b₁.edges y).isSome ∨
              y ∈ keysOf (p.2.filter (fun q => decide (q.1 ∈ keep))) then
            some ((dlookup b₁.edges y).getD [])
          else none :=
        fun y => pend_sub_dests p.1 keep p.2 (fun q hq => hls p (by simp) q hq) b₁ hf₁ y
      rw [ih (fun p' hp' q hq => hls p' (by simp [hp']) q hq) b₂ x]
      have hA : (dlookup b₂.edges x).isSome = true ↔
          ((dlookup b.edges x).isSome = true ∨ x = p.1 ∨
            x ∈ keysOf (p.2.filter (fun q => decide (q.1 ∈ keep)))) := by
        rw [hpend₂ x]
        by_cases hxp : x = p.1
        · rw [if_pos hxp]
          simp only [Option.isSome_some, true_iff]
          exact Or.inr (Or.inl hxp)
        · rw [if_neg hxp]
          by_cases h1 : (dlookup b₁.edges x).isSome = true ∨
              x ∈ keysOf (p.2.filter (fun q => decide (q.1 ∈ keep)))
          · rw [if_pos h1]
            simp only [Option.isSome_some, true_iff]
            rcases h1 with h1 | h1
            · rw [hb₁, pend_add_vertex, if_neg hxp] at h1
              exact Or.inl h1
            · exact Or.inr (Or.inr h1)
          · rw [if_neg h1]
            simp only [Option.isSome_none, Bool.false_eq_true, false_iff]
            intro h
            apply h1
            rcases h with h | h | h
            · left
              rw [hb₁, pend_add_vertex, if_neg hxp]
              exact h
            · exact absurd h hxp
            · right
              exact h
      have hgetD : (dlookup b₂.edges x).getD [] =
          (dlookup b.edges x).getD [] ++
            (if p.1 = x ∧ p.1 ∈ keep then
              (p.2.filter (fun q => decide (q.1 ∈ keep))).flatMap
                (fun q => q.2.map (fun l => (q.1, l)))
            else []) := by
        rw [hpend₂ x]
        by_cases hxp : x = p.1
        · rw [if_pos hxp]
          simp only [Option.getD_some]
          rw [hb₁, pend_getD_add_vertex, if_pos ⟨hxp.symm, hpk⟩, hxp]
        · rw [if_neg hxp,
            if_neg (fun hc : p.1 = x ∧ p.1 ∈ keep => hxp hc.1.symm)]
          by_cases h1 : (dlookup b₁.edges x).isSome = true ∨
              x ∈ keysOf (p.2.filter (fun q => decide (q.1 ∈ keep)))
          · rw [if_pos h1]
            simp only [Option.getD_some]
            rw [hb₁, pend_getD_add_vertex, List.append_nil]
          · rw [if_neg h1]
            push_neg at h1
            have hxb : dlookup b.edges x = none := by
              have h2 := h1.1
              rw [hb₁, pend_add_vertex, if_neg hxp] at h2
              exact Option.not_isSome_iff_eq_none.mp (by simpa using h2)
            rw [hxb]
            simp
      have hcond : ((dlookup b₂.edges x).isSome = true ∨
          (x ∈ keysOf rest ∧ x ∈ keep) ∨
          (∃ p' ∈ rest, p'.1 ∈ keep ∧
            x ∈ keysOf (p'.2.filter (fun q => decide (q.1 ∈ keep))))) ↔
          ((dlookup b.edges x).isSome = true ∨
            (x ∈ keysOf (p :: rest) ∧ x ∈ keep) ∨
            (∃ p' ∈ p :: rest, p'.1 ∈ keep ∧
              x ∈ keysOf (p'.2.filter (fun q => decide (q.1 ∈ keep))))) := by
        rw [hA]
        constructor
        · rintro ((h | h | h) | h | h)
          · exact Or.inl h
          · exact Or.inr (Or.inl ⟨by simp [keysOf, h], h ▸ hpk⟩)
          · exact Or.inr (Or.inr ⟨p, by simp, hpk, h⟩)
          · exact Or.inr (Or.inl ⟨by rw [keysOf_cons]; exact List.mem_cons_of_mem _ h.1, h.2⟩)
          · obtain ⟨p', hp', h1, h2⟩ := h
            exact Or.inr (Or.inr ⟨p', by simp [hp'], h1, h2⟩)
        · rintro (h | ⟨hk, hkeep⟩ | ⟨p', hp', h1, h2⟩)
          · exact Or.inl (Or.inl h)
          · rcases (by simpa [keysOf] using hk : x = p.1 ∨ x ∈ keysOf rest) with h | h
            · exact Or.inl (Or.inr (Or.inl h))
            · exact Or.inr (Or.inl ⟨h, hkeep⟩)
          · rcases List.mem_cons.mp hp' with heq | hp'
            · exact Or.inl (Or.inr (Or.inr (heq ▸ h2)))
            · exact Or.inr (Or.inr ⟨p', hp', h1, h2⟩)
      by_cases hc : (dlookup b.edges x).isSome = true ∨
          (x ∈ keysOf (p :: rest) ∧ x ∈ keep) ∨
          (∃ p' ∈ p :: rest, p'.1 ∈ keep ∧
            x ∈ keysOf (p'.2.filter (fun q => decide (q.1 ∈ keep))))
      · rw [if_pos (hcond.mpr hc), if_pos hc, hgetD, List.flatMap_cons,
          List.append_assoc]
      · rw [if_neg (fun h => hc (hcond.mp h)), if_neg hc]
    · rw [if_neg hpk]
      rw [ih (fun p' hp' q hq => hls p' (by simp [hp']) q hq) b x]
      have hcond : ((dlookup b.edges x).isSome = true ∨
          (x ∈ keysOf rest ∧ x ∈ keep) ∨
          (∃ p' ∈ rest, p'.1 ∈ keep ∧
            x ∈ keysOf (p'.2.filter (fun q => decide (q.1 ∈ keep))))) ↔
          ((dlookup b.edges x).isSome = true ∨
            (x ∈ keysOf (p :: rest) ∧ x ∈ keep) ∨
            (∃ p' ∈ p :: rest, p'.1 ∈ keep ∧
              x ∈ keysOf (p'.2.filter (fun q => decide (q.1 ∈ keep))))) := by
        constructor
        · rintro (h | ⟨h1, h2⟩ | ⟨p', hp', h1, h2⟩)
          · exact Or.inl h
          · exact Or.inr (Or.inl ⟨by rw [keysOf_cons]; exact List.mem_cons_of_mem _ h1, h2⟩)
          · exact Or.inr (Or.inr ⟨p', by simp [hp'], h1, h2⟩)
        · rintro (h | ⟨h1, h2⟩ | ⟨p', hp', h1, h2⟩)
          · exact Or.inl h
          · rcases (by simpa [keysOf] using h1 : x = p.1 ∨ x ∈ keysOf rest) with h | h
            · exact absurd (h ▸ h2) hpk
            · exact Or.inr (Or.inl ⟨h, h2⟩)
          · rcases List.mem_cons.mp hp' with heq | hp'
            · exact absurd (heq ▸ h1) hpk
            · exact Or.inr (Or.inr ⟨p', hp', h1, h2⟩)
      have hhead : (if p.1 = x ∧ p.1 ∈ keep then
          (p.2.filter (fun q => decide (q.1 ∈ keep))).flatMap
            (fun q => q.2.map (fun l => (q.1, l)))
        else []) = [] := if_neg (fun hc => hpk hc.2)
      by_cases hc : (dlookup b.edges x).isSome = true ∨
          (x ∈ keysOf (p :: rest) ∧ x ∈ keep) ∨
          (∃ p' ∈ p :: rest, p'.1 ∈ keep ∧
            x ∈ keysOf (p'.2.filter (fun q => decide (q.1 ∈ keep))))
      · rw [if_pos (hcond.mpr hc), if_pos hc, List.flatMap_cons, hhead,
          List.nil_append]
      · rw [if_neg (fun h => hc (hcond.mp h)), if_neg hc]

end SubgraphOuter

section SubgraphGraphLemmas

open DirectedGraph DirectedGraph.Builder

variable {V L : Type} [DecidableEq V] [DecidableEq L]

theorem dlookup_filter_mem {α : Type} (S : Finset V) (y : V) :
    ∀ (ds : List (V × α)),
    dlookup (ds.filter (fun q => decide (q.1 ∈ S))) y =
      if y ∈ S then dlookup ds y else none := by
  intro ds
  induction ds with
  | nil => by_cases hy : y ∈ S <;> simp [hy, dlookup]
  | cons q rest ih =>
    rw [List.filter_cons]
    by_cases hq : q.1 ∈ S
    · rw [if_pos (by simpa using hq)]
      by_cases hqy : q.1 = y
      · rw [dlookup_cons, if_pos hqy, if_pos (hqy ▸ hq), dlookup_cons, if_pos hqy]
      · rw [dlookup_cons, if_neg hqy, ih]
        by_cases hy : y ∈ S
        · rw [if_pos hy, if_pos hy, dlookup_cons, if_neg hqy]
        · rw [if_neg hy, if_neg hy]
    · rw [if_neg (by simpa using hq), ih]
      by_cases hy : y ∈ S
      · rw [if_pos hy, if_pos hy, dlookup_cons,
          if_neg (fun he : q.1 = y => hq (he ▸ hy))]
      · rw [if_neg hy, if_neg hy]

theorem nodup_keysOf_filter {α : Type} {ds : List (V × α)} (P : V × α → Bool)
    (h : (keysOf ds).Nodup) : (keysOf (ds.filter P)).Nodup :=
  h.sublist (List.Sublist.map Prod.fst (List.filter_sublist ds))

theorem filter_subContrib (m : List (V × LSet L)) (y : V) :
    ((m.flatMap (fun q => q.2.map (fun l => (q.1, l)))).filter (fun r => r.1 = y)) =
      m.flatMap (fun q => if q.1 = y then q.2.map (fun l => (q.1, l)) else []) := by
  induction m with
  | nil => simp
  | cons q rest ih =>
    rw [List.flatMap_cons, List.filter_append, ih, List.flatMap_cons]
    congr 1
    by_cases hqy : q.1 = y
    · rw [if_pos hqy]
      apply List.filter_eq_self.mpr
      intro r hr
      obtain ⟨l, _hl, rfl⟩ := List.mem_map.mp hr
      simp [hqy]
    · rw [if_neg hqy]
      apply List.filter_eq_nil_iff.mpr
      intro r hr
      obtain ⟨l, _hl, rfl⟩ := List.mem_map.mp hr
      simp [hqy]

/-- The adjacency entry of `x` in `subgraph S`: present iff `x` is a kept
key or a kept destination of a kept source, holding exactly the kept
labelled edges out of `x`, collected into a destination dict. -/
theorem dlookup_subgraph (g : DirectedGraph V L) (S : Finset V)
    (hls : ∀ p ∈ g.adjacency_matrix, ∀ q ∈ p.2, q.2 ≠ []) (x : V) :
    dlookup (g.subgraph S).adjacency_matrix x =
      if (x ∈ keysOf g.adjacency_matrix ∧ x ∈ S) ∨
          (∃ p ∈ g.adjacency_matrix, p.1 ∈ S ∧
            x ∈ keysOf (p.2.filter (fun q => decide (q.1 ∈ S)))) then
        some (collect_destinations (g.adjacency_matrix.flatMap (fun p =>
          if p.1 = x ∧ p.1 ∈ S then
            (p.2.filter (fun q => decide (q.1 ∈ S))).flatMap
              (fun q => q.2.map (fun l => (q.1, l)))
          else [])))
      else none := by
  unfold subgraph
  rw [dlookup_build_graph]
  rw [pend_sub_entries S g.adjacency_matrix hls ⟨[]⟩ x]
  by_cases hc : (x ∈ keysOf g.adjacency_matrix ∧ x ∈ S) ∨
      (∃ p ∈ g.adjacency_matrix, p.1 ∈ S ∧
        x ∈ keysOf (p.2.filter (fun q => decide (q.1 ∈ S))))
  · rw [if_pos ?_, if_pos hc]
    · simp
    · exact Or.inr hc
  · rw [if_neg ?_, if_neg hc]
    · rfl
    · rintro (h | h)
      · simp at h
      · exact hc h

theorem mem_keys_subgraph {g : DirectedGraph V L} (hWF : g.WF) (S : Finset V)
    (x : V) :
    x ∈ keysOf (g.subgraph S).adjacency_matrix ↔
      x ∈ keysOf g.adjacency_matrix ∧ x ∈ S := by
  rw [← dlookup_isSome_iff_mem_keys,
    dlookup_subgraph g S (fun p hp q hq => ((hWF.2 p hp).2 q hq).1) x]
  constructor
  · intro h
    by_cases hc : (x ∈ keysOf g.adjacency_matrix ∧ x ∈ S) ∨
        (∃ p ∈ g.adjacency_matrix, p.1 ∈ S ∧
          x ∈ keysOf (p.2.filter (fun q => decide (q.1 ∈ S))))
    · rcases hc with hc | hc
      · exact hc
      · obtain ⟨p, hp, hpS, hx⟩ := hc
        obtain ⟨q, hq, rfl⟩ := by
          simpa only [keysOf, List.mem_map] using hx
        have hqm := List.mem_filter.mp hq
        exact ⟨((hWF.2 p hp).2 q hqm.1).2.2, by simpa using hqm.2⟩
    · rw [if_neg hc] at h
      simp at h
  · intro h
    rw [if_pos (Or.inl h)]
    simp

/-- `subgraph` keeps exactly the original vertices that lie in the kept set:
in particular a kept vertex survives even when all of its edges are filtered
out (it was re-added by `add_vertex`). -/
theorem vertexes_subgraph {g : DirectedGraph V L} (hWF : g.WF) (S : Finset V) :
    (g.subgraph S).vertexes = S ∩ g.vertexes := by
  ext x
  simp only [vertexes, List.mem_toFinset, Finset.mem_inter]
  rw [mem_keys_subgraph hWF S x]
  tauto

/-- An edge of `subgraph S` exists iff both endpoints are kept and the edge
existed, and then it carries literally the same label set. -/
theorem edgeLabels_subgraph {g : DirectedGraph V L} (hWF : g.WF) (S : Finset V)
    (x y : V) :
    edgeLabels (g.subgraph S) x y =
      if x ∈ S ∧ y ∈ S then edgeLabels g x y else none := by
  unfold edgeLabels
  rw [dlookup_subgraph g S (fun p hp q hq => ((hWF.2 p hp).2 q hq).1) x]
  by_cases hc : (x ∈ keysOf g.adjacency_matrix ∧ x ∈ S) ∨
      (∃ p ∈ g.adjacency_matrix, p.1 ∈ S ∧
        x ∈ keysOf (p.2.filter (fun q => decide (q.1 ∈ S))))
  · rw [if_pos hc]
    have hkx : x ∈ keysOf g.adjacency_matrix ∧ x ∈ S := by
      rcases hc with hc | hc
      · exact hc
      · obtain ⟨p, hp, hpS, hx⟩ := hc
        obtain ⟨q, hq, rfl⟩ := by
          simpa only [keysOf, List.mem_map] using hx
        have hqm := List.mem_filter.mp hq
        exact ⟨((hWF.2 p hp).2 q hqm.1).2.2, by simpa using hqm.2⟩
    have hflat : (g.adjacency_matrix.flatMap (fun p =>
        if p.1 = x ∧ p.1 ∈ S then
          (p.2.filter (fun q => decide (q.1 ∈ S))).flatMap
            (fun q => q.2.map (fun l => (q.1, l)))
        else [])) =
        g.adjacency_matrix.flatMap (fun p =>
          if p.1 = x then
            (p.2.filter (fun q => decide (q.1 ∈ S))).flatMap
              (fun q => q.2.map (fun l => (q.1, l)))
          else []) := by
      congr 1
      funext p
      by_cases hpx : p.1 = x
      · rw [if_pos ⟨hpx, hpx ▸ hkx.2⟩, if_pos hpx]
      · rw [if_neg (fun hc2 => hpx hc2.1), if_neg hpx]
    show dlookup (collect_destinations _) y = _
    rw [dlookup_collect_destinations, hflat, flatMap_key_single hWF.1 _ x]
    cases hdx : dlookup g.adjacency_matrix x with
    | none =>
      exact absurd ((dlookup_isSome_iff_mem_keys _ _).mpr hkx.1)
        (by simp [hdx])
    | some ds =>
      have hmem_x : (x, ds) ∈ g.adjacency_matrix := mem_of_dlookup_eq_some hdx
      have hWFx := hWF.2 (x, ds) hmem_x
      show (if (((ds.filter (fun q => decide (q.1 ∈ S))).flatMap
          (fun q => q.2.map (fun l => (q.1, l)))).filter (fun r => r.1 = y)) = []
        then none
        else some (setList ((((ds.filter (fun q => decide (q.1 ∈ S))).flatMap
          (fun q => q.2.map (fun l => (q.1, l)))).filter
            (fun r => r.1 = y)).map Prod.snd))) =
        if x ∈ S ∧ y ∈ S then dlookup ds y else none
      rw [filter_subContrib (ds.filter (fun q => decide (q.1 ∈ S))) y,
        flatMap_key_single (nodup_keysOf_filter _ hWFx.1) _ y,
        dlookup_filter_mem S y ds]
      by_cases hyS : y ∈ S
      · have hxy : x ∈ S ∧ y ∈ S := ⟨hkx.2, hyS⟩
        rw [if_pos hyS, if_pos hxy]
        cases hdy : dlookup ds y with
        | none => simp
        | some s =>
          have hmem_y : (y, s) ∈ ds := mem_of_dlookup_eq_some hdy
          have hs := hWFx.2 (y, s) hmem_y
          show (if (s.map (fun l => (y, l))) = [] then none
            else some (setList ((s.map (fun l => (y, l))).map Prod.snd))) = some s
          rw [if_neg (by simpa using hs.1)]
          congr 1
          rw [List.map_map]
          have hcomp : (Prod.snd ∘ fun l => ((y, l) : V × L)) = id := rfl
          rw [hcomp, List.map_id]
          exact setList_eq_self hs.2.1
      · rw [if_neg hyS, if_neg (fun h : x ∈ S ∧ y ∈ S => hyS h.2)]
        simp
  · rw [if_neg hc]
    by_cases hxS : x ∈ S
    · have hxk : x ∉ keysOf g.adjacency_matrix := fun h => hc (Or.inl ⟨h, hxS⟩)
      rw [dlookup_eq_none_of_not_mem_keys hxk]
      show (none : Option (LSet L)) = if x ∈ S ∧ y ∈ S then none else none
      rw [ite_self]
    · rw [if_neg (fun h : x ∈ S ∧ y ∈ S => hxS h.1)]

end SubgraphGraphLemmas

section ClaimsSubgraph

open DirectedGraph

/-- C5: for every well-formed `DirectedGraph` (the dict/closure invariants
every `build_graph` output satisfies) and every kept set `S`, the vertex set
of `subgraph(S)` is exactly `S ∩ vertexes` — so a kept vertex all of whose
edges are filtered out survives as an isolated vertex — and for every pair of
vertices the edge of the subgraph exists iff both endpoints are in `S` and
the edge existed in the original, in which case it carries literally the same
label set. -/
theorem c5_subgraph_characterisation {V L : Type} [DecidableEq V]
    [DecidableEq L] {g : DirectedGraph V L} (hWF : g.WF) (S : Finset V)
    (x y : V) :
    (g.subgraph S).vertexes = S ∩ g.vertexes ∧
    edgeLabels (g.subgraph S) x y =
      (if x ∈ S ∧ y ∈ S then edgeLabels g x y else none) :=
  ⟨vertexes_subgraph hWF S, edgeLabels_subgraph hWF S x y⟩

/-- Witness for C5: the 4-cycle graph restricted to `{b, c}`, looked at the
surviving edge `b -> c`. -/
theorem c5_subgraph_characterisation_witness :
    (cycleGraph.subgraph (insert "b" {"c"})).vertexes =
        insert "b" {"c"} ∩ cycleGraph.vertexes ∧
    edgeLabels (cycleGraph.subgraph (insert "b" {"c"})) "b" "c" =
      (if "b" ∈ insert "b" ({"c"} : Finset String) ∧
          "c" ∈ insert "b" ({"c"} : Finset String) then
        edgeLabels cycleGraph "b" "c" else none) :=
  c5_subgraph_characterisation (by decide) (insert "b" {"c"}) "b" "c"

end ClaimsSubgraph
